import Mathlib

/-!
Shallow embedding of the tag-scanning and page-synthesis core of the
obsidian-tag-page plugin (src/utils/tagSearch.ts, src/utils/pageContent.ts,
src/utils/obsidianApi.ts).

JavaScript strings are modelled as Lean `String` (a structure over
`List Char`); the concrete regular expressions appearing in the source are
modelled by hand-rolled scanners implementing the same matching semantics.
The source escapes regex metacharacters where it builds patterns from the
tag (`findSmallestUnitsContainingTag`), so literal matching is the exact
semantics there; where it does not escape (`containsTag`,
`findBulletListsContainingTag`), the model is the exact semantics for tags
containing no regex metacharacters, which covers every tag in this
development.  Case-insensitive (`i` flag) matching is modelled by matching
the lower-cased pattern against the lower-cased text (the ASCII fragment).
-/

/-- Model of the JavaScript whitespace class `\s` (ASCII fragment: space,
tab, line feed, carriage return). -/
def isWsChar (c : Char) : Bool := c = ' ' || c = '\t' || c = '\n' || c = '\r'

/-- `toLowerCase` on the character list (ASCII fragment). -/
def lowerL (l : List Char) : List Char := l.map Char.toLower

/-- `String.prototype.trim`: strip leading and trailing `\s` characters. -/
def jsTrimL (l : List Char) : List Char :=
  ((l.dropWhile isWsChar).reverse.dropWhile isWsChar).reverse

/-- `String.prototype.trimEnd`. -/
def jsTrimEndL (l : List Char) : List Char := (l.reverse.dropWhile isWsChar).reverse

def jsTrim (s : String) : String := String.mk (jsTrimL s.data)

def jsTrimEnd (s : String) : String := String.mk (jsTrimEndL s.data)

/-- `content.split('\n')` (always returns at least one piece). -/
def splitLinesL : List Char → List (List Char)
  | [] => [[]]
  | c :: t =>
    if c = '\n' then [] :: splitLinesL t
    else
      match splitLinesL t with
      | [] => [[c]]
      | h :: r => (c :: h) :: r

/-- `lines.join('\n')` on character lists. -/
def joinNlL : List (List Char) → List Char
  | [] => []
  | [x] => x
  | x :: y :: t => x ++ '\n' :: joinNlL (y :: t)

def splitLinesStr (s : String) : List String := (splitLinesL s.data).map String.mk

def joinNl (l : List String) : String := String.mk (joinNlL (l.map String.data))

/-- Does `pat` occur at the very start of `l`? -/
def leadsWith : List Char → List Char → Bool
  | [], _ => true
  | _ :: _, [] => false
  | p :: ps, c :: cs => p = c && leadsWith ps cs

/-- If `pat` occurs at the start of `l`, return the remainder. -/
def dropLead : List Char → List Char → Option (List Char)
  | [], l => some l
  | _ :: _, [] => none
  | p :: ps, c :: cs => if p = c then dropLead ps cs else none

/-- Does `pat` occur anywhere in `l` (JS `String.prototype.includes`)? -/
def hasSubstr (pat : List Char) : List Char → Bool
  | [] => leadsWith pat []
  | c :: t => leadsWith pat (c :: t) || hasSubstr pat t

/-- Longest run of characters satisfying `p`, and the rest. -/
def spanP (p : Char → Bool) : List Char → List Char × List Char
  | [] => ([], [])
  | c :: t =>
    if p c then
      let r := spanP p t
      (c :: r.1, r.2)
    else ([], c :: t)

/-- `s.endsWith(suffix)`. -/
def jsEndsWithL (l suffix : List Char) : Bool := leadsWith suffix.reverse l.reverse

def jsEndsWith (s suffix : String) : Bool := jsEndsWithL s.data suffix.data

/-- `s.slice(0, -n)`: drop the last `n` characters. -/
def sliceDropRight (l : List Char) (n : Nat) : List Char := l.take (l.length - n)

/-- `line.search(/\S/)`: index of the first non-whitespace character, `-1`
if there is none. -/
def searchNonWsAux : List Char → Nat → Int
  | [], _ => -1
  | c :: t, i => if isWsChar c then searchNonWsAux t (i + 1) else Int.ofNat i

def jsSearchNonWs (l : List Char) : Int := searchNonWsAux l 0

/-! ## JS `Map` / `Set` model (insertion-ordered association lists) -/

def mapLookup {α : Type} : List (String × α) → String → Option α
  | [], _ => none
  | (k', v) :: t, k => if k' = k then some v else mapLookup t k

/-- `Map.prototype.set`: update in place if the key exists, else append. -/
def mapSet {α : Type} : List (String × α) → String → α → List (String × α)
  | [], k, v => [(k, v)]
  | (k', v') :: t, k, v => if k' = k then (k, v) :: t else (k', v') :: mapSet t k v

/-- `map.get(k)!.push(x)` (no-op if the key is absent, as with `?.push`). -/
def mapPush : List (String × List String) → String → String → List (String × List String)
  | [], _, _ => []
  | (k', vs) :: t, k, v => if k' = k then (k', vs ++ [v]) :: t else (k', vs) :: mapPush t k v

/-- `Set.prototype.add` on an insertion-ordered list. -/
def setAdd (s : List String) (x : String) : List String :=
  if s.contains x then s else s ++ [x]

/-! ## tagSearch.ts -/

/-- Result of `getIsWildCard` (tagSearch.ts:18-27). -/
structure WildCard where
  isWildCard : Bool
  cleanedTag : String
deriving DecidableEq, Repr

/-- `getIsWildCard` (tagSearch.ts:18-27): detect a trailing `/*` and strip it. -/
def getIsWildCard (tag : String) : WildCard :=
  let isWildCard := jsEndsWith tag "/*"
  let cleanedTag := if isWildCard then String.mk (sliceDropRight tag.data 2) else tag
  ⟨isWildCard, cleanedTag⟩

/-- One position's match attempt for the regex `` `${cleanedTag}\s` `` used by
`containsTag` for exact tags: the pattern followed by one whitespace character. -/
def hasPatThenWs (pat : List Char) : List Char → Bool
  | [] => false
  | c :: t =>
    (match dropLead pat (c :: t) with
     | some (w :: _) => isWsChar w
     | _ => false) || hasPatThenWs pat t

/-- `containsTag` (tagSearch.ts:36-50).  Wildcard tags use
`String.prototype.includes` of the cleaned tag; exact tags test the regex
`` `${cleanedTag}\s` `` (unescaped, `gi`), modelled literally. -/
def containsTag (stringToSearch tag : String) : Bool :=
  let w := getIsWildCard tag
  let lowerStringToSearch := lowerL stringToSearch.data
  let lowerCleanedTag := lowerL w.cleanedTag.data
  if w.isWildCard then hasSubstr lowerCleanedTag lowerStringToSearch
  else hasPatThenWs lowerCleanedTag lowerStringToSearch

/-- One match attempt, at the current position, of the per-line regex of
`findSmallestUnitsContainingTag` (tagSearch.ts:72-83): the escaped cleaned
tag, followed for wildcard queries by the optional greedy continuation
`(?:\/[^\s]*)?`.  Returns the matched text and the remainder. -/
def unitMatcher (pat : List Char) (isWC : Bool) (l : List Char) :
    Option (List Char × List Char) :=
  match dropLead pat l with
  | none => none
  | some rest =>
    if isWC then
      match rest with
      | '/' :: t =>
        let s := spanP (fun c => !isWsChar c) t
        some (pat ++ '/' :: s.1, s.2)
      | _ => some (pat, rest)
    else some (pat, rest)

/-- One match attempt of the regexes of `findBulletListsContainingTag`
(tagSearch.ts:146-149): for wildcard queries `` `${cleanedTag}(/[^\s]+)?` ``
(the group needs at least one non-whitespace character after `/`), for exact
queries `` `${cleanedTag}(?![^\s])` `` (not followed by a non-whitespace
character). -/
def bulletMatcher (pat : List Char) (isWC : Bool) (l : List Char) :
    Option (List Char × List Char) :=
  match dropLead pat l with
  | none => none
  | some rest =>
    if isWC then
      match rest with
      | '/' :: t =>
        match spanP (fun c => !isWsChar c) t with
        | ([], _) => some (pat, rest)
        | (run, rest2) => some (pat ++ '/' :: run, rest2)
      | _ => some (pat, rest)
    else
      match rest with
      | [] => some (pat, [])
      | c :: _ => if isWsChar c then some (pat, rest) else none

/-- `line.matchAll(regex)` / `line.match(regex)` with the `g` flag: collect
successive non-overlapping matches, advancing by one position after a
zero-length match (fuelled by the line length). -/
def scanMatches (matcher : List Char → Option (List Char × List Char)) :
    Nat → List Char → List (List Char)
  | 0, _ => []
  | fuel + 1, l =>
    match matcher l with
    | some (m, rest) =>
      match m with
      | [] => [] :: (match l with | [] => [] | _ :: t => scanMatches matcher fuel t)
      | _ => m :: scanMatches matcher fuel rest
    | none => match l with | [] => [] | _ :: t => scanMatches matcher fuel t

/-- Key adjustment for wildcard matches (tagSearch.ts:87-91): strip a
trailing `/*` from the lower-cased matched text. -/
def adjustUnitKey (isWC : Bool) (m : List Char) : List Char :=
  if isWC && jsEndsWithL m ['/', '*'] then sliceDropRight m 2 else m

/-- Map update of `findSmallestUnitsContainingTag` (tagSearch.ts:93-102):
create the key with the trimmed line, or append the trimmed line if it is
not already present. -/
def mapAddUnit (m : List (String × List String)) (key line : String) :
    List (String × List String) :=
  match mapLookup m key with
  | none => mapSet m key [line]
  | some existing => if existing.contains line then m else mapSet m key (existing ++ [line])

/-- One line of the `forEach` of `findSmallestUnitsContainingTag`
(tagSearch.ts:82-104): collect the regex matches of the line and file the
trimmed line under each lower-cased matched variant. -/
def unitsLineStep (pat : List Char) (isWC : Bool) (m : List (String × List String))
    (line : List Char) : List (String × List String) :=
  let ms := scanMatches (unitMatcher pat isWC) (line.length + 1) (lowerL line)
  ms.foldl
    (fun m' mt =>
      mapAddUnit m' (String.mk (adjustUnitKey isWC mt)) (String.mk (jsTrimL line)))
    m

/-- `findSmallestUnitsContainingTag` (tagSearch.ts:66-107).  Splits the
content into lines (dropping bullet lines when `excludeBullets`), collects
all regex matches per line, and files each line under the lower-cased
matched tag variant. -/
def findSmallestUnitsContainingTag (content tag : String) (excludeBullets : Bool) :
    List (String × List String) :=
  let w := getIsWildCard tag
  let pat := lowerL w.cleanedTag.data
  let contentLines := (splitLinesL content.data).filter
    (fun line => !(excludeBullets && leadsWith ['-'] (jsTrimL line)))
  contentLines.foldl (unitsLineStep pat w.isWildCard) []

/-- Scan state of `findBulletListsContainingTag` (tagSearch.ts:131-136). -/
structure BulletScanState where
  currentBulletIndentation : Int
  lastTagsAtCurrentIndentation : List String
  capturingSubBullet : Bool
  capturedBulletLists : List (String × List String)
deriving DecidableEq, Repr

/-- One line of the `forEach` body of `findBulletListsContainingTag`
(tagSearch.ts:138-192). -/
def bulletScanStep (isWC : Bool) (pat : List Char) (st : BulletScanState)
    (line : List Char) : BulletScanState :=
  let lineTrim := jsTrimL line
  let startsWithBullet := leadsWith ['-', ' '] lineTrim
  let lineIndentation := jsSearchNonWs line
  if startsWithBullet then
    let ms := scanMatches (bulletMatcher pat isWC) (line.length + 1) (lowerL line)
    let st1 :=
      if !ms.isEmpty || lineIndentation ≤ st.currentBulletIndentation then
        { st with capturingSubBullet := false,
                  currentBulletIndentation := lineIndentation,
                  lastTagsAtCurrentIndentation := [] }
      else st
    if !ms.isEmpty then
      let st2 := { st1 with capturingSubBullet := false }
      ms.foldl
        (fun s mt =>
          let trimmedMatch := if isWC && jsEndsWithL mt ['/'] then sliceDropRight mt 1 else mt
          let key := String.mk trimmedMatch
          let m0 :=
            if (mapLookup s.capturedBulletLists key).isSome then s.capturedBulletLists
            else s.capturedBulletLists ++ [(key, [])]
          let pushed :=
            if lineIndentation > s.currentBulletIndentation && s.capturingSubBullet
            then String.mk line else String.mk lineTrim
          { s with capturedBulletLists := mapPush m0 key pushed,
                   lastTagsAtCurrentIndentation :=
                     setAdd s.lastTagsAtCurrentIndentation key })
        st2
    else
      if lineIndentation > st1.currentBulletIndentation &&
          !st1.lastTagsAtCurrentIndentation.isEmpty then
        let st2 := { st1 with capturingSubBullet := true }
        { st2 with capturedBulletLists :=
            (st2.lastTagsAtCurrentIndentation.foldl
              (fun m tg => mapPush m tg (String.mk line))
              st2.capturedBulletLists) }
      else st1
  else st

/-- `findBulletListsContainingTag` (tagSearch.ts:127-195). The source
recomputes `getIsWildCard tag` on every line; the value is the same each
time, so it is hoisted here. -/
def findBulletListsContainingTag (content tag : String) : List (String × List String) :=
  let w := getIsWildCard tag
  let pat := lowerL w.cleanedTag.data
  let fileLines := (splitLinesL content.data).filter (fun l => !(jsTrimL l).isEmpty)
  (fileLines.foldl (bulletScanStep w.isWildCard pat)
    ⟨0, [], false, []⟩).capturedBulletLists

/-- `TagMatchDetail` (types.ts). -/
structure TagMatchDetail where
  stringContainingTag : String
  fileLink : String
deriving DecidableEq, Repr

/-- `TagInfo = Map<string, TagMatchDetail[]>` (types.ts). -/
abbrev TagInfo := List (String × List TagMatchDetail)

/-- `consolidateTagInfo` (tagSearch.ts:207-235). -/
def consolidateTagInfo (fileLink : String)
    (unitsContainingTag bulletListsContainingTag : Option (List (String × List String))) :
    TagInfo :=
  let add := fun (m : TagInfo) (tag : String) (matchStrings : List String) =>
    let existing := (mapLookup m tag).getD []
    mapSet m tag (existing ++ matchStrings.map (fun s => ⟨s, fileLink⟩))
  let m1 := (unitsContainingTag.getD []).foldl (fun m p => add m p.1 p.2) []
  (bulletListsContainingTag.getD []).foldl (fun m p => add m p.1 p.2) m1

/-- The settings fields consumed by `processFile` (types.ts). -/
structure PluginSettings where
  bulletedSubItems : Bool
  includeLines : Bool
deriving DecidableEq, Repr

/-- A markdown file of the vault, with the value of the configured
front-matter query property (the external metadata collaborator's answer
for `settings.frontmatterQueryProperty`), `none` when the property is
absent. -/
structure MarkdownFile where
  basename : String
  content : String
  frontmatterQueryValue : Option String
deriving DecidableEq, Repr

/-- `isTagPage` (obsidianApi.ts, src/unnamed/part_008:15-39), applied to
the file's front-matter value under the configured key: with a
`tagOfInterest` it requires strict equality, without one it returns the
truthiness of the value (a present, non-empty string). -/
def isTagPage (frontmatterValue : Option String) (tagOfInterest : Option String) : Bool :=
  match tagOfInterest with
  | some t => frontmatterValue = some t
  | none =>
    match frontmatterValue with
    | some v => !(v = "")
    | none => false

/-- `processFile` (tagSearch.ts:246-284): gate on `containsTag`, then
dispatch on the settings (`switch(true)` with a `default` falling into the
lines-only branch). -/
def processFile (settings : PluginSettings) (file : MarkdownFile)
    (tagOfInterest : String) : TagInfo :=
  if !containsTag file.content tagOfInterest then []
  else if settings.bulletedSubItems && settings.includeLines then
    consolidateTagInfo ("[[" ++ file.basename ++ "]]")
      (some (findSmallestUnitsContainingTag file.content tagOfInterest true))
      (some (findBulletListsContainingTag file.content tagOfInterest))
  else if settings.bulletedSubItems && !settings.includeLines then
    consolidateTagInfo ("[[" ++ file.basename ++ "]]")
      none
      (some (findBulletListsContainingTag file.content tagOfInterest))
  else
    consolidateTagInfo ("[[" ++ file.basename ++ "]]")
      (some (findSmallestUnitsContainingTag file.content tagOfInterest false))
      none

/-- One step of the final merge of `fetchTagData` (tagSearch.ts:312-317):
fold one per-file `TagInfo` into the consolidated map, appending each
key's details to whatever is already there. -/
def mergeTagInfoStep (acc : TagInfo) (ti : TagInfo) : TagInfo :=
  ti.foldl (fun a p => mapSet a p.1 ((mapLookup a p.1).getD [] ++ p.2)) acc

/-- `fetchTagData` (tagSearch.ts:294-322): drop every file for which
`isTagPage(app, settings.frontmatterQueryProperty, file)` holds — note the
call site passes no `tagOfInterest` — then scan the remaining files and
merge the per-file maps in corpus order. -/
def fetchTagData (files : List MarkdownFile) (settings : PluginSettings)
    (tagOfInterest : String) : TagInfo :=
  let tagInfos := (files.filter (fun f => !isTagPage f.frontmatterQueryValue none)).map
    (fun f => processFile settings f tagOfInterest)
  tagInfos.foldl mergeTagInfoStep []

/-! ## pageContent.ts -/

/-- The match detail consumed by `generateTagPageContent` (pageContent.ts
destructures `{ stringContainingTag, fileLink, sourcePath }`). -/
structure PageMatchDetail where
  stringContainingTag : String
  fileLink : String
  sourcePath : String
deriving DecidableEq, Repr

/-- The settings fields consumed by pageContent.ts. -/
structure PageSettings where
  tagPageTitleTemplate : String
  linkAtEnd : Bool
deriving DecidableEq, Repr

/-- The external Obsidian/Node collaborators used by pageContent.ts:
`app.metadataCache.getFirstLinkpathDest(target, sourcePath)` (returning the
resolved file's vault path, or `none`), `path.posix.dirname`, and the
composition `normalizePath(path.posix.join(dir, url))`. -/
structure EmbedEnv where
  getFirstLinkpathDest : String → String → Option String
  posixDirname : String → String
  joinAndNormalizePath : String → String → String

/-- `inner.split('|', 2)` keeps the first two segments; the full split on a
single character. -/
def splitOnCharL (sep : Char) : List Char → List (List Char)
  | [] => [[]]
  | c :: t =>
    if c = sep then [] :: splitOnCharL sep t
    else
      match splitOnCharL sep t with
      | [] => [[c]]
      | h :: r => (c :: h) :: r

/-- `linkTarget.match(/^([^#^]+)([#^].+)?$/)` (pageContent.ts:175): a
non-empty run without `#`/`^`, then optionally a `#`/`^` with at least one
further character, anchored at both ends.  The `.` of the second group does
not match a line terminator (ASCII fragment: `\n`, `\r`), so a target
whose suffix part contains one fails the whole match. -/
def parseTargetSuffix (l : List Char) : Option (List Char × List Char) :=
  let s := spanP (fun c => !(c = '#' || c = '^')) l
  if s.1.isEmpty then none
  else
    match s.2 with
    | [] => some (s.1, [])
    | m :: tail =>
      if !tail.isEmpty && tail.all (fun c => !(c = '\n' || c = '\r')) then
        some (s.1, m :: tail)
      else none

/-- Replacement callback for one wiki embed `![[inner]]`
(pageContent.ts:172-186): resolve the base target, keep the whole match
unchanged when unresolvable, otherwise rebuild with the resolved path,
suffix and alias. -/
def wikiReplace (env : EmbedEnv) (sourcePath : String) (inner : List Char) : List Char :=
  let parts := splitOnCharL '|' inner
  let linkTarget := parts.headD []
  let aliasPart := parts[1]?
  let parsed := parseTargetSuffix linkTarget
  let baseTarget := (parsed.map Prod.fst).getD linkTarget
  let suffix := (parsed.map Prod.snd).getD []
  match env.getFirstLinkpathDest (String.mk baseTarget) sourcePath with
  | none => '!' :: '[' :: '[' :: (inner ++ [']', ']'])
  | some resolved =>
    let aliasSuffix := match aliasPart with
      | some a => if a.isEmpty then [] else '|' :: a
      | none => []
    '!' :: '[' :: '[' :: (resolved.data ++ suffix ++ aliasSuffix ++ [']', ']'])

/-- `content.replace(/!\[\[([^\]]+)\]\]/g, ...)` (pageContent.ts:170-187):
scan for `![[`, a non-empty bracket-free inner text and `]]`; on a match
emit the callback's replacement and resume after the match, otherwise copy
one character and resume. -/
def wikiEmbedPass (env : EmbedEnv) (sourcePath : String) : Nat → List Char → List Char
  | 0, l => l
  | fuel + 1, l =>
    match l with
    | [] => []
    | '!' :: '[' :: '[' :: t =>
      let s := spanP (fun c => !(c = ']')) t
      (match s.2 with
       | ']' :: ']' :: r =>
         if s.1.isEmpty then '!' :: wikiEmbedPass env sourcePath fuel ('[' :: '[' :: t)
         else wikiReplace env sourcePath s.1 ++ wikiEmbedPass env sourcePath fuel r
       | _ => '!' :: wikiEmbedPass env sourcePath fuel ('[' :: '[' :: t))
    | c :: t => c :: wikiEmbedPass env sourcePath fuel t

/-- `rawUrl.trim().replace(/^<|>$/g, '')` (pageContent.ts:193): strip one
leading `<` and one trailing `>`. -/
def stripAngle (l : List Char) : List Char :=
  let l1 := match l with | '<' :: t => t | _ => l
  match l1.reverse with
  | '>' :: t => t.reverse
  | _ => l1

def isAsciiLetter (c : Char) : Bool := ('a' ≤ c && c ≤ 'z') || ('A' ≤ c && c ≤ 'Z')

/-- `/^[a-z]+:|^#/i.test(url)` (pageContent.ts:194): a scheme of letters
followed by `:`, or an anchor-only link. -/
def startsWithSchemeOrAnchor (l : List Char) : Bool :=
  match l with
  | '#' :: _ => true
  | _ =>
    let s := spanP isAsciiLetter l
    !s.1.isEmpty && (match s.2 with | ':' :: _ => true | _ => false)

/-- Replacement callback for one markdown image `![alt](rawUrl)`
(pageContent.ts:191-206): external/anchor URLs are kept; resolvable targets
are rewritten to the resolved vault path; unresolvable ones fall back to
`normalizePath(path.posix.join(dirname(sourcePath), url))`. -/
def mdReplace (env : EmbedEnv) (sourcePath : String) (altText rawUrl : List Char) :
    List Char :=
  let url := stripAngle (jsTrimL rawUrl)
  if startsWithSchemeOrAnchor url then
    '!' :: '[' :: (altText ++ ']' :: '(' :: rawUrl ++ [')'])
  else
    match env.getFirstLinkpathDest (String.mk url) sourcePath with
    | some resolved => '!' :: '[' :: (altText ++ ']' :: '(' :: resolved.data ++ [')'])
    | none =>
      let joined := env.joinAndNormalizePath (env.posixDirname sourcePath) (String.mk url)
      '!' :: '[' :: (altText ++ ']' :: '(' :: joined.data ++ [')'])

/-- `content.replace(/!\[([^\]]*)\]\(([^)]+)\)/g, ...)` (pageContent.ts:
189-207): scan for `![`, a bracket-free alt text, `](`, a non-empty
paren-free URL and `)`. -/
def mdImagePass (env : EmbedEnv) (sourcePath : String) : Nat → List Char → List Char
  | 0, l => l
  | fuel + 1, l =>
    match l with
    | [] => []
    | '!' :: '[' :: t =>
      let a := spanP (fun c => !(c = ']')) t
      (match a.2 with
       | ']' :: '(' :: t2 =>
         let u := spanP (fun c => !(c = ')')) t2
         (match u.2 with
          | ')' :: r =>
            if u.1.isEmpty then '!' :: mdImagePass env sourcePath fuel ('[' :: t)
            else mdReplace env sourcePath a.1 u.1 ++ mdImagePass env sourcePath fuel r
          | _ => '!' :: mdImagePass env sourcePath fuel ('[' :: t))
       | _ => '!' :: mdImagePass env sourcePath fuel ('[' :: t))
    | c :: t => c :: mdImagePass env sourcePath fuel t

/-- `resolveRelativeEmbeds` (pageContent.ts:165-208): the wiki-embed pass
followed by the markdown-image pass. -/
def resolveRelativeEmbeds (env : EmbedEnv) (sourcePath content : String) : String :=
  let firstPass := wikiEmbedPass env sourcePath (content.data.length + 1) content.data
  String.mk (mdImagePass env sourcePath (firstPass.length + 1) firstPass)

/-- `firstBullet.match` of the regex `^(\s*)-` anchored at the start
(pageContent.ts:128): the length of the leading whitespace group when the
first non-whitespace character is a dash. -/
def bulletIndentMatch (l : List Char) : Option Nat :=
  let s := spanP isWsChar l
  match s.2 with
  | '-' :: _ => some s.1.length
  | _ => none

/-- `firstBullet.match(/^(\s*-\s*)(.*)$/)` (pageContent.ts:133): the bullet
marker with surrounding whitespace, and the rest of the line. -/
def bulletMarkerMatch (l : List Char) : Option (List Char × List Char) :=
  let s := spanP isWsChar l
  match s.2 with
  | '-' :: t =>
    let s2 := spanP isWsChar t
    some (s.1 ++ '-' :: s2.1, s2.2)
  | _ => none

/-- Link splicing for a bullet first line (pageContent.ts:133-144). -/
def spliceRootBullet (firstBullet : List Char) (bullets : List (List Char))
    (fileLink : String) (linkAtEnd : Bool) : String :=
  if linkAtEnd then
    String.mk (joinNlL ((firstBullet ++ ' ' :: fileLink.data) :: bullets))
  else
    match bulletMarkerMatch firstBullet with
    | some pr =>
      String.mk (joinNlL (jsTrimEndL (pr.1 ++ fileLink.data ++ ' ' :: pr.2) :: bullets))
    | none =>
      String.mk (joinNlL (jsTrimEndL (fileLink.data ++ ' ' :: firstBullet) :: bullets))

/-- `processTagMatch` (pageContent.ts:117-151), returning the single string
pushed onto `tagPageContent`. -/
def processTagMatch (env : EmbedEnv) (fullTag fileLink sourcePath : String)
    (linkAtEnd : Bool) : String :=
  let resolvedTag := resolveRelativeEmbeds env sourcePath fullTag
  if leadsWith ['-'] (jsTrimL resolvedTag.data) then
    match splitLinesL resolvedTag.data with
    | [] => resolvedTag
    | firstBullet :: bullets =>
      match bulletIndentMatch firstBullet with
      | some n =>
        if 0 < n then resolvedTag
        else spliceRootBullet firstBullet bullets fileLink linkAtEnd
      | none => spliceRootBullet firstBullet bullets fileLink linkAtEnd
  else
    if linkAtEnd then
      String.mk (jsTrimEndL ('-' :: ' ' :: resolvedTag.data ++ ' ' :: fileLink.data))
    else
      String.mk (jsTrimEndL ('-' :: ' ' :: fileLink.data ++ ' ' :: resolvedTag.data))

/-- The frontmatter `tags` value of a file: a single string or an array
(pageContent.ts:217-237 normalizes both). -/
inductive FrontmatterTags where
  | one : String → FrontmatterTags
  | many : List String → FrontmatterTags
deriving DecidableEq, Repr

/-- A markdown file as seen by the frontmatter-listing step of
`generateTagPageContent`: its basename and the `tags` value of its
frontmatter, `none` when falsy. -/
structure FrontmatterFile where
  basename : String
  tags : Option FrontmatterTags
deriving DecidableEq, Repr

/-- `matchesTagOfInterest` (pageContent.ts:217-237). -/
def matchesTagOfInterest (tags : FrontmatterTags) (tagOfInterest : String) : Bool :=
  let normalizedTags := match tags with | .one s => [s] | .many l => l
  let w := getIsWildCard tagOfInterest
  if w.isWildCard then
    normalizedTags.any (fun tg =>
      let fullTag := "#" ++ tg
      fullTag = w.cleanedTag || leadsWith (w.cleanedTag ++ "/").data fullTag.data)
  else
    normalizedTags.any (fun tg => ("#" ++ tg) = w.cleanedTag)

/-- `String.prototype.replace` with a string pattern: first occurrence only. -/
def replaceFirstAux (pat repl : List Char) : List Char → List Char
  | [] => []
  | c :: t =>
    match dropLead pat (c :: t) with
    | some rest => repl ++ rest
    | none => c :: replaceFirstAux pat repl t

def jsReplaceFirst (s pat repl : String) : String :=
  if pat.data.isEmpty then String.mk (repl.data ++ s.data)
  else String.mk (replaceFirstAux pat.data repl.data s.data)

/-- `String.prototype.replaceAll` with a string pattern: all non-overlapping
occurrences, scanning left to right. -/
def replaceAllAux (pat repl : List Char) : Nat → List Char → List Char
  | 0, l => l
  | fuel + 1, l =>
    match l with
    | [] => []
    | c :: t =>
      match dropLead pat (c :: t) with
      | some rest => repl ++ replaceAllAux pat repl fuel rest
      | none => c :: replaceAllAux pat repl fuel t

def jsReplaceAll (s pat repl : String) : String :=
  if pat.data.isEmpty then s
  else String.mk (replaceAllAux pat.data repl.data (s.data.length + 1) s.data)

/-- `resolveTagPageTitle` (pageContent.ts:264-283).  The template
placeholders are the literal texts `\x7b\x7btag\x7d\x7d`,
`\x7b\x7btagname\x7d\x7d` and `\x7b\x7blf\x7d\x7d` of the source, written
here with escaped braces. -/
def resolveTagPageTitle (settings : PageSettings) (tagOfInterest : String) : String :=
  let template := settings.tagPageTitleTemplate
  if template = "" then
    "## Tag Content for " ++ jsReplaceFirst tagOfInterest "*" ""
  else
    let tag := jsReplaceFirst tagOfInterest "*" ""
    let tagName := jsReplaceFirst (jsReplaceFirst tagOfInterest "*" "") "#" ""
    "## " ++
      jsReplaceAll
        (jsReplaceAll
          (jsReplaceAll (jsReplaceAll template "\x7b\x7blf\x7d\x7d" "\n")
            "\x7b\x7btag\x7d\x7d" (" " ++ tag))
          "\x7b\x7btagname\x7d\x7d" tagName)
        "  " " "

/-- Stable insertion of `x` by key length: `x` goes before the first entry
whose key is not strictly shorter. -/
def insertByKeyLen {α : Type} (x : String × α) : List (String × α) → List (String × α)
  | [] => [x]
  | y :: ys => if y.1.length < x.1.length then y :: insertByKeyLen x ys else x :: y :: ys

/-- `Array.from(tagsInfo).sort((a, b) => a[0].length - b[0].length)`
(pageContent.ts:47-50): ECMAScript `Array.prototype.sort` is stable, so
this is the stable sort by key length. -/
def jsSortByKeyLen {α : Type} : List (String × α) → List (String × α)
  | [] => []
  | x :: xs => insertByKeyLen x (jsSortByKeyLen xs)

/-- The per-detail rendering shared by both branches of
`generateTagPageContent` (pageContent.ts:58-82). -/
def renderDetails (env : EmbedEnv) (linkAtEnd : Bool) (details : List PageMatchDetail) :
    List String :=
  details.map (fun d => processTagMatch env d.stringContainingTag d.fileLink d.sourcePath linkAtEnd)

/-- The variant-section lines of `generateTagPageContent`
(pageContent.ts:44-84): with more than one variant key, a `###` subheading
per key in stably length-sorted order; with at most one, the rendered
details only. -/
def generateTagSections (env : EmbedEnv) (linkAtEnd : Bool)
    (tagsInfo : List (String × List PageMatchDetail)) : List String :=
  if 1 < tagsInfo.length then
    (jsSortByKeyLen tagsInfo).flatMap
      (fun p => ("### " ++ p.1) :: renderDetails env linkAtEnd p.2)
  else
    tagsInfo.flatMap (fun p => renderDetails env linkAtEnd p.2)

/-- The frontmatter-listing lines of `generateTagPageContent`
(pageContent.ts:86-101). -/
def frontmatterSection (cleanedTag : String) (files : List FrontmatterFile)
    (tagOfInterest : String) : List String :=
  let filesWithFrontmatterTag :=
    (files.filter (fun f =>
      match f.tags with
      | some ts => matchesTagOfInterest ts tagOfInterest
      | none => false)).map (fun f => "- [[" ++ f.basename ++ "]]")
  if filesWithFrontmatterTag.isEmpty then []
  else ("## Files with " ++ cleanedTag ++ " in frontmatter") :: filesWithFrontmatterTag

/-- The `tagPageContent` array of `generateTagPageContent`
(pageContent.ts:32-102) before the final `join('\n')`. -/
def generateTagPageContentList (env : EmbedEnv) (settings : PageSettings)
    (tagsInfo : List (String × List PageMatchDetail)) (tagOfInterest : String)
    (files : List FrontmatterFile) : List String :=
  resolveTagPageTitle settings tagOfInterest
    :: (generateTagSections env settings.linkAtEnd tagsInfo
        ++ frontmatterSection (getIsWildCard tagOfInterest).cleanedTag files tagOfInterest)

/-- `generateTagPageContent` (pageContent.ts:32-103). -/
def generateTagPageContent (env : EmbedEnv) (settings : PageSettings)
    (tagsInfo : List (String × List PageMatchDetail)) (tagOfInterest : String)
    (files : List FrontmatterFile) : String :=
  joinNl (generateTagPageContentList env settings tagsInfo tagOfInterest files)

/-! ## Spec-side predicate and concrete environments -/

/-- One position's test for a word-bounded occurrence: the pattern followed
by whitespace or the end of the text. -/
def boundedScan (pat : List Char) : List Char → Bool
  | [] => pat.isEmpty
  | c :: t =>
    (match dropLead pat (c :: t) with
     | some [] => true
     | some (w :: _) => isWsChar w
     | none => false) || boundedScan pat t

/-- Modelled from the spec (§4.2, §8): "every line reported by
`UnitScanner(d, t)` contains a case-insensitive, word-bounded occurrence of
`t`'s cleaned form", where a word boundary is "whitespace or end-of-token".
This is the spec's matching rule, written out to compare against the
source's `findSmallestUnitsContainingTag`; it is not a translation of any
source function. -/
def specWordBoundedOccurrence (s tag : String) : Bool :=
  boundedScan (lowerL (getIsWildCard tag).cleanedTag.data) (lowerL s.data)

/-- A concrete embed environment for witnesses and counterexamples: no
target resolves, `dirname` and the normalized join behave like POSIX paths
on the inputs used here. -/
def noResolveEnv : EmbedEnv :=
  ⟨fun _ _ => none, fun _ => "notes", fun a b => a ++ "/" ++ b⟩

/-- A concrete embed environment that resolves exactly the target
`"note"` (to a vault path), for exercising the resolvable branch. -/
def resolveNoteEnv : EmbedEnv :=
  ⟨fun t _ => if t = "note" then some "vault/dir/note.md" else none,
    fun _ => "notes", fun a b => a ++ "/" ++ b⟩

/-! ## Basic lemmas about the string primitives -/

theorem strMk_append (a b : List Char) : String.mk a ++ String.mk b = String.mk (a ++ b) := rfl

theorem strData_append (a b : String) : (a ++ b).data = a.data ++ b.data := rfl

theorem strAppend_assoc (a b c : String) : a ++ b ++ c = a ++ (b ++ c) := by
  cases a; cases b; cases c; simp [strMk_append, List.append_assoc]

theorem leadsWith_iff (p : List Char) : ∀ l, leadsWith p l = true ↔ ∃ t, l = p ++ t := by
  induction p with
  | nil => intro l; simp [leadsWith]
  | cons a p ih =>
    intro l
    cases l with
    | nil => simp [leadsWith]
    | cons c cs =>
      simp only [leadsWith, Bool.and_eq_true, decide_eq_true_eq, ih]
      constructor
      · rintro ⟨rfl, t, rfl⟩; exact ⟨t, rfl⟩
      · rintro ⟨t, h⟩
        injection h with h1 h2
        exact ⟨h1.symm, t, h2⟩

theorem dropLead_eq_some_iff (p : List Char) : ∀ l r, dropLead p l = some r ↔ l = p ++ r := by
  induction p with
  | nil => intro l r; simp [dropLead, eq_comm]
  | cons a p ih =>
    intro l r
    cases l with
    | nil => simp [dropLead]
    | cons c cs =>
      simp only [dropLead]
      by_cases h : a = c
      · subst h; simp [ih]
      · simp only [if_neg h]
        constructor
        · intro hc; cases hc
        · intro hc; injection hc with h1 _; exact absurd h1.symm h

theorem leadsWith_append_self (p t : List Char) : leadsWith p (p ++ t) = true :=
  (leadsWith_iff p (p ++ t)).mpr ⟨t, rfl⟩

theorem hasSubstr_cons_of (p : List Char) (c : Char) (t : List Char)
    (h : hasSubstr p t = true) : hasSubstr p (c :: t) = true := by
  simp [hasSubstr, h]

theorem hasSubstr_of_leadsWith (p l : List Char) (h : leadsWith p l = true) :
    hasSubstr p l = true := by
  cases l with
  | nil => simpa [hasSubstr] using h
  | cons c t => simp [hasSubstr, h]

theorem hasSubstr_append_left (p a : List Char) : ∀ l, hasSubstr p l = true →
    hasSubstr p (a ++ l) = true := by
  induction a with
  | nil => intro l h; simpa using h
  | cons x a ih => intro l h; exact hasSubstr_cons_of _ _ _ (ih l h)

theorem hasSubstr_append_mid (p a b : List Char) : hasSubstr p (a ++ p ++ b) = true := by
  have h : hasSubstr p (p ++ b) = true :=
    hasSubstr_of_leadsWith _ _ (leadsWith_append_self p b)
  simpa [List.append_assoc] using hasSubstr_append_left p a (p ++ b) h

theorem spanP_eq (p : Char → Bool) : ∀ l, spanP p l = (l.takeWhile p, l.dropWhile p) := by
  intro l
  induction l with
  | nil => rfl
  | cons c t ih =>
    simp only [spanP, List.takeWhile_cons, List.dropWhile_cons]
    by_cases h : p c <;> simp [h, ih]

theorem mem_takeWhile_ws (p : Char → Bool) : ∀ (l : List Char), ∀ c ∈ l.takeWhile p, p c = true := by
  intro l
  induction l with
  | nil => intro c h; cases h
  | cons x t ih =>
    intro c h
    rw [List.takeWhile_cons] at h
    by_cases hx : p x
    · rw [if_pos hx] at h
      cases h with
      | head => exact hx
      | tail _ h => exact ih c h
    · rw [if_neg hx] at h; cases h

theorem jsTrimL_decomp (l : List Char) :
    ∃ pre post, l = pre ++ jsTrimL l ++ post ∧
      (∀ c ∈ pre, isWsChar c = true) ∧ (∀ c ∈ post, isWsChar c = true) := by
  refine ⟨l.takeWhile isWsChar,
    (((l.dropWhile isWsChar).reverse.takeWhile isWsChar)).reverse, ?_, ?_, ?_⟩
  · have h1 : l = l.takeWhile isWsChar ++ l.dropWhile isWsChar :=
      (List.takeWhile_append_dropWhile _ _).symm
    have h3 : l.dropWhile isWsChar =
        ((l.dropWhile isWsChar).reverse.dropWhile isWsChar).reverse ++
          ((l.dropWhile isWsChar).reverse.takeWhile isWsChar).reverse := by
      conv_lhs => rw [← List.reverse_reverse (l.dropWhile isWsChar)]
      conv_lhs =>
        rw [← List.takeWhile_append_dropWhile (p := isWsChar)
          (l := (l.dropWhile isWsChar).reverse)]
      rw [List.reverse_append]
    conv_lhs => rw [h1, h3]
    rw [jsTrimL, List.append_assoc]
  · exact mem_takeWhile_ws _ _
  · intro c hc
    rw [List.mem_reverse] at hc
    exact mem_takeWhile_ws _ _ c hc

theorem leadsWith_restrict (p : List Char) (hnw : ∀ c ∈ p, isWsChar c = false) :
    ∀ m b, (∀ c ∈ b, isWsChar c = true) → leadsWith p (m ++ b) = true →
      leadsWith p m = true := by
  induction p with
  | nil => intro m b _ _; rfl
  | cons a p ih =>
    intro m b hb h
    cases m with
    | nil =>
      rw [List.nil_append] at h
      cases b with
      | nil => cases h
      | cons x t =>
        simp only [leadsWith, Bool.and_eq_true, decide_eq_true_eq] at h
        have hx := hb x (List.mem_cons_self x t)
        have ha := hnw a (List.mem_cons_self a p)
        rw [h.1] at ha
        rw [ha] at hx
        cases hx
    | cons c cs =>
      simp only [List.cons_append, leadsWith, Bool.and_eq_true] at h ⊢
      exact ⟨h.1, ih (fun c hc => hnw c (List.mem_cons_of_mem a hc)) cs b hb h.2⟩

theorem hasSubstr_all_ws (p : List Char) (hp : p ≠ [])
    (hnw : ∀ c ∈ p, isWsChar c = false) :
    ∀ b, (∀ c ∈ b, isWsChar c = true) → hasSubstr p b = false := by
  intro b
  induction b with
  | nil =>
    intro _
    cases p with
    | nil => exact absurd rfl hp
    | cons a q => simp [hasSubstr, leadsWith]
  | cons x t ih =>
    intro hb
    cases p with
    | nil => exact absurd rfl hp
    | cons a q =>
      simp only [hasSubstr, leadsWith, Bool.or_eq_false_iff, Bool.and_eq_false_iff]
      constructor
      · left
        have hx := hb x (List.mem_cons_self x t)
        have ha := hnw a (List.mem_cons_self a q)
        simp only [decide_eq_false_iff_not]
        intro hax
        rw [hax, hx] at ha
        cases ha
      · exact ih (fun c hc => hb c (List.mem_cons_of_mem x hc))

theorem hasSubstr_extract (p : List Char) (hp : p ≠ [])
    (hnw : ∀ c ∈ p, isWsChar c = false) :
    ∀ a m b, (∀ c ∈ a, isWsChar c = true) → (∀ c ∈ b, isWsChar c = true) →
      hasSubstr p (a ++ m ++ b) = true → hasSubstr p m = true := by
  intro a
  induction a with
  | cons x a ih =>
    intro m b ha hb h
    rw [List.cons_append, List.cons_append] at h
    cases p with
    | nil => exact absurd rfl hp
    | cons q qs =>
      simp only [hasSubstr, Bool.or_eq_true] at h
      rcases h with h | h
      · exfalso
        simp only [leadsWith, Bool.and_eq_true, decide_eq_true_eq] at h
        have hx := ha x (List.mem_cons_self x a)
        have hq := hnw q (List.mem_cons_self q qs)
        rw [h.1, hx] at hq
        cases hq
      · exact ih m b (fun c hc => ha c (List.mem_cons_of_mem x hc)) hb h
  | nil =>
    intro m b _ hb h
    rw [List.nil_append] at h
    induction m with
    | nil =>
      rw [List.nil_append] at h
      rw [hasSubstr_all_ws p hp hnw b hb] at h
      cases h
    | cons y m ihm =>
      rw [List.cons_append] at h
      cases hl : leadsWith p (y :: (m ++ b)) with
      | true =>
        have hm : leadsWith p (y :: m) = true := by
          have := leadsWith_restrict p hnw (y :: m) b hb
          rw [List.cons_append] at this
          exact this hl
        exact hasSubstr_of_leadsWith _ _ hm
      | false =>
        cases p with
        | nil => exact absurd rfl hp
        | cons q qs =>
          simp only [hasSubstr, hl, Bool.false_or] at h
          exact hasSubstr_cons_of _ _ _ (ihm h)

/-! ## Case-folding preserves the whitespace class -/

theorem isWsChar_toLower (c : Char) : isWsChar c.toLower = isWsChar c := by
  unfold Char.toLower
  by_cases h : c.toNat ≥ 65 ∧ c.toNat ≤ 90
  · rw [if_pos h]
    obtain ⟨h1, h2⟩ := h
    have hc : c = Char.ofNat c.toNat := (Char.ofNat_toNat c).symm
    set n := c.toNat with hn
    rw [hc]
    interval_cases n <;> decide
  · rw [if_neg h]

theorem lowerL_all_ws (l : List Char) (h : ∀ c ∈ l, isWsChar c = true) :
    ∀ c ∈ lowerL l, isWsChar c = true := by
  intro c hc
  rw [lowerL, List.mem_map] at hc
  obtain ⟨d, hd, rfl⟩ := hc
  rw [isWsChar_toLower]
  exact h d hd

theorem lowerL_append (a b : List Char) : lowerL (a ++ b) = lowerL a ++ lowerL b := by
  simp [lowerL]

/-! ## Soundness of the match scanner -/

theorem scanMatches_zero (matcher : List Char → Option (List Char × List Char))
    (l : List Char) : scanMatches matcher 0 l = [] := rfl

theorem scanMatches_succ (matcher : List Char → Option (List Char × List Char))
    (fuel : Nat) (l : List Char) :
    scanMatches matcher (fuel + 1) l =
      match matcher l with
      | some (m, rest) =>
        match m with
        | [] => [] :: (match l with | [] => [] | _ :: t => scanMatches matcher fuel t)
        | _ => m :: scanMatches matcher fuel rest
      | none => match l with | [] => [] | _ :: t => scanMatches matcher fuel t := rfl

theorem scanMatches_sound (matcher : List Char → Option (List Char × List Char)) :
    ∀ fuel l, scanMatches matcher fuel l ≠ [] →
      ∃ a suf r, l = a ++ suf ∧ matcher suf = some r := by
  intro fuel
  induction fuel with
  | zero => intro l h; exact absurd (scanMatches_zero matcher l) h
  | succ fuel ih =>
    intro l h
    cases hm : matcher l with
    | some r => exact ⟨[], l, r, rfl, hm⟩
    | none =>
      rw [scanMatches_succ] at h
      simp only [hm] at h
      cases l with
      | nil => exact absurd rfl h
      | cons c t =>
        obtain ⟨a, suf, r, hsplit, hmr⟩ := ih t h
        exact ⟨c :: a, suf, r, by rw [hsplit]; rfl, hmr⟩

theorem unitMatcher_leadsWith (pat : List Char) (isWC : Bool) (l : List Char)
    (r : List Char × List Char) (h : unitMatcher pat isWC l = some r) :
    leadsWith pat l = true := by
  rw [unitMatcher] at h
  cases hd : dropLead pat l with
  | none => rw [hd] at h; cases h
  | some rest =>
    have := (dropLead_eq_some_iff pat l rest).mp hd
    exact (leadsWith_iff pat l).mpr ⟨rest, this⟩

/-- If the per-line scan of `findSmallestUnitsContainingTag` produced any
match, the (lower-cased) pattern occurs in the scanned text. -/
theorem scanUnits_hasSubstr (pat : List Char) (isWC : Bool) (fuel : Nat) (l : List Char)
    (h : scanMatches (unitMatcher pat isWC) fuel l ≠ []) :
    hasSubstr pat l = true := by
  obtain ⟨a, suf, r, hsplit, hmr⟩ := scanMatches_sound _ fuel l h
  have hl := unitMatcher_leadsWith pat isWC suf r hmr
  rw [hsplit]
  exact hasSubstr_append_left pat a suf (hasSubstr_of_leadsWith pat suf hl)

/-! ## Map lemmas -/

theorem mapLookup_mapSet {α : Type} : ∀ (m : List (String × α)) (k k' : String) (v : α),
    mapLookup (mapSet m k v) k' = if k = k' then some v else mapLookup m k' := by
  intro m
  induction m with
  | nil => intro k k' v; simp [mapSet, mapLookup]
  | cons p t ih =>
    intro k k' v
    obtain ⟨pk, pv⟩ := p
    by_cases h1 : pk = k
    · subst h1
      by_cases h2 : pk = k'
      · subst h2
        simp [mapSet, mapLookup]
      · simp [mapSet, mapLookup, h2]
    · by_cases h2 : pk = k'
      · subst h2
        have h3 : ¬k = pk := fun h => h1 h.symm
        simp [mapSet, mapLookup, h1, h3]
      · simp [mapSet, mapLookup, h1, h2, ih]

/-- The invariant used for scanner soundness: every string stored in any
value list of the map satisfies `Q`. -/
def MapVals (Q : String → Prop) (m : List (String × List String)) : Prop :=
  ∀ k ls, mapLookup m k = some ls → ∀ s ∈ ls, Q s

theorem mapVals_nil (Q : String → Prop) : MapVals Q [] := by
  intro k ls h; cases h

theorem mapVals_mapAddUnit (Q : String → Prop) (m : List (String × List String))
    (k v : String) (hm : MapVals Q m) (hv : Q v) : MapVals Q (mapAddUnit m k v) := by
  intro k' ls hlk s hs
  rw [mapAddUnit] at hlk
  cases hold : mapLookup m k with
  | none =>
    simp only [hold] at hlk
    rw [mapLookup_mapSet] at hlk
    by_cases h : k = k'
    · rw [if_pos h] at hlk
      injection hlk with hlk
      subst hlk
      rw [List.mem_singleton] at hs
      subst hs
      exact hv
    · rw [if_neg h] at hlk
      exact hm k' ls hlk s hs
  | some existing =>
    simp only [hold] at hlk
    by_cases hc : existing.contains v
    · rw [if_pos hc] at hlk
      exact hm k' ls hlk s hs
    · rw [if_neg hc, mapLookup_mapSet] at hlk
      by_cases h : k = k'
      · rw [if_pos h] at hlk
        injection hlk with hlk
        subst hlk
        rcases List.mem_append.mp hs with h1 | h1
        · exact hm k existing hold s h1
        · rw [List.mem_singleton] at h1
          subst h1
          exact hv
      · rw [if_neg h] at hlk
        exact hm k' ls hlk s hs

theorem mapVals_foldAdd (Q : String → Prop) (v : String) (hv : Q v) :
    ∀ (keys : List String) (m : List (String × List String)), MapVals Q m →
      MapVals Q (keys.foldl (fun m' k => mapAddUnit m' k v) m) := by
  intro keys
  induction keys with
  | nil => intro m hm; exact hm
  | cons k keys ih =>
    intro m hm
    exact ih (mapAddUnit m k v) (mapVals_mapAddUnit Q m k v hm hv)

theorem mapVals_foldAddKeyed (Q : String → Prop) (v : String) (hv : Q v)
    (f : List Char → String) :
    ∀ (ms : List (List Char)) (m : List (String × List String)), MapVals Q m →
      MapVals Q (ms.foldl (fun m' mt => mapAddUnit m' (f mt) v) m) := by
  intro ms
  induction ms with
  | nil => intro m hm; exact hm
  | cons mt ms ih =>
    intro m hm
    exact ih (mapAddUnit m (f mt) v) (mapVals_mapAddUnit Q m (f mt) v hm hv)

theorem mapVals_unitsLineStep (pat : List Char) (isWC : Bool) (line : List Char)
    (hp : pat ≠ []) (hw : ∀ c ∈ pat, isWsChar c = false)
    (m : List (String × List String))
    (hm : MapVals (fun s => hasSubstr pat (lowerL s.data) = true) m) :
    MapVals (fun s => hasSubstr pat (lowerL s.data) = true)
      (unitsLineStep pat isWC m line) := by
  rw [unitsLineStep]
  by_cases hms : scanMatches (unitMatcher pat isWC) (line.length + 1) (lowerL line) = []
  · rw [hms]
    exact hm
  · have hline : hasSubstr pat (lowerL line) = true :=
      scanUnits_hasSubstr pat isWC (line.length + 1) (lowerL line) hms
    have hQ : hasSubstr pat (lowerL (String.mk (jsTrimL line)).data) = true := by
      obtain ⟨pre, post, hdec, hpre, hpost⟩ := jsTrimL_decomp line
      rw [hdec, lowerL_append, lowerL_append] at hline
      exact hasSubstr_extract pat hp hw (lowerL pre) (lowerL (jsTrimL line)) (lowerL post)
        (lowerL_all_ws pre hpre) (lowerL_all_ws post hpost) hline
    exact mapVals_foldAddKeyed _ _ hQ _ _ m hm

theorem mapVals_unitsFoldLines (pat : List Char) (isWC : Bool)
    (hp : pat ≠ []) (hw : ∀ c ∈ pat, isWsChar c = false) :
    ∀ (lines : List (List Char)) (m : List (String × List String)),
      MapVals (fun s => hasSubstr pat (lowerL s.data) = true) m →
      MapVals (fun s => hasSubstr pat (lowerL s.data) = true)
        (lines.foldl (unitsLineStep pat isWC) m) := by
  intro lines
  induction lines with
  | nil => intro m hm; exact hm
  | cons line lines ih =>
    intro m hm
    exact ih _ (mapVals_unitsLineStep pat isWC line hp hw m hm)

/-- Soundness of `findSmallestUnitsContainingTag`: every string stored in
any value list contains a case-insensitive occurrence of the cleaned tag
(for a cleaned tag that is non-empty and whitespace-free). -/
theorem findSmallestUnits_sound (content tag : String) (excludeBullets : Bool)
    (hp : lowerL (getIsWildCard tag).cleanedTag.data ≠ [])
    (hw : ∀ c ∈ lowerL (getIsWildCard tag).cleanedTag.data, isWsChar c = false) :
    MapVals
      (fun s => hasSubstr (lowerL (getIsWildCard tag).cleanedTag.data) (lowerL s.data) = true)
      (findSmallestUnitsContainingTag content tag excludeBullets) := by
  rw [findSmallestUnitsContainingTag]
  exact mapVals_unitsFoldLines _ _ hp hw _ _ (mapVals_nil _)

/-! ## Stable sort lemmas (pageContent.ts:47-50) -/

theorem insertByKeyLen_perm {α : Type} (x : String × α) :
    ∀ l, List.Perm (insertByKeyLen x l) (x :: l) := by
  intro l
  induction l with
  | nil => exact List.Perm.refl _
  | cons y ys ih =>
    rw [insertByKeyLen]
    by_cases h : y.1.length < x.1.length
    · rw [if_pos h]
      exact (List.Perm.cons y ih).trans (List.Perm.swap x y ys)
    · rw [if_neg h]

theorem insertByKeyLen_pairwise {α : Type} (x : String × α) :
    ∀ l, List.Pairwise (fun a b : String × α => a.1.length ≤ b.1.length) l →
      List.Pairwise (fun a b : String × α => a.1.length ≤ b.1.length)
        (insertByKeyLen x l) := by
  intro l
  induction l with
  | nil => intro _; simp [insertByKeyLen]
  | cons y ys ih =>
    intro h
    rw [List.pairwise_cons] at h
    obtain ⟨hy, hys⟩ := h
    rw [insertByKeyLen]
    by_cases hlt : y.1.length < x.1.length
    · rw [if_pos hlt, List.pairwise_cons]
      constructor
      · intro z hz
        rw [(insertByKeyLen_perm x ys).mem_iff, List.mem_cons] at hz
        rcases hz with rfl | hz
        · exact Nat.le_of_lt hlt
        · exact hy z hz
      · exact ih hys
    · rw [if_neg hlt, List.pairwise_cons]
      constructor
      · intro z hz
        rw [List.mem_cons] at hz
        rcases hz with rfl | hz
        · exact Nat.le_of_not_lt hlt
        · exact Nat.le_trans (Nat.le_of_not_lt hlt) (hy z hz)
      · rw [List.pairwise_cons]
        exact ⟨hy, hys⟩

theorem jsSortByKeyLen_perm {α : Type} :
    ∀ l : List (String × α), List.Perm (jsSortByKeyLen l) l := by
  intro l
  induction l with
  | nil => exact List.Perm.refl _
  | cons x xs ih =>
    rw [jsSortByKeyLen]
    exact (insertByKeyLen_perm x (jsSortByKeyLen xs)).trans (List.Perm.cons x ih)

theorem jsSortByKeyLen_pairwise {α : Type} :
    ∀ l : List (String × α),
      List.Pairwise (fun a b : String × α => a.1.length ≤ b.1.length)
        (jsSortByKeyLen l) := by
  intro l
  induction l with
  | nil => simp [jsSortByKeyLen]
  | cons x xs ih =>
    rw [jsSortByKeyLen]
    exact insertByKeyLen_pairwise x _ ih

theorem insertByKeyLen_filter {α : Type} (x : String × α) (n : Nat) :
    ∀ l, (insertByKeyLen x l).filter (fun p => decide (p.1.length = n)) =
      if x.1.length = n then x :: l.filter (fun p => decide (p.1.length = n))
      else l.filter (fun p => decide (p.1.length = n)) := by
  intro l
  induction l with
  | nil =>
    rw [insertByKeyLen]
    by_cases h : x.1.length = n
    · simp [List.filter_cons, h]
    · simp [List.filter_cons, h]
  | cons y ys ih =>
    rw [insertByKeyLen]
    by_cases hlt : y.1.length < x.1.length
    · rw [if_pos hlt]
      by_cases hx : x.1.length = n
      · have hy : ¬(y.1.length = n) := by omega
        rw [if_pos hx]
        simp only [List.filter_cons, hy, decide_False, ih, if_pos hx]
        simp
      · rw [if_neg hx]
        simp only [List.filter_cons, ih, if_neg hx]
    · rw [if_neg hlt]
      by_cases hx : x.1.length = n
      · rw [if_pos hx]
        simp only [List.filter_cons, hx, decide_True]
        simp
      · rw [if_neg hx]
        simp only [List.filter_cons, hx, decide_False]
        simp

theorem jsSortByKeyLen_filter {α : Type} (n : Nat) :
    ∀ l : List (String × α),
      (jsSortByKeyLen l).filter (fun p => decide (p.1.length = n)) =
        l.filter (fun p => decide (p.1.length = n)) := by
  intro l
  induction l with
  | nil => rfl
  | cons x xs ih =>
    rw [jsSortByKeyLen, insertByKeyLen_filter]
    by_cases hx : x.1.length = n
    · rw [if_pos hx, ih]
      simp [List.filter_cons, hx]
    · rw [if_neg hx, ih]
      simp [List.filter_cons, hx]

/-! ## Split/join and trim lemmas -/

theorem splitLinesL_ne_nil : ∀ l : List Char, splitLinesL l ≠ [] := by
  intro l
  induction l with
  | nil => simp [splitLinesL]
  | cons c t ih =>
    rw [splitLinesL]
    by_cases h : c = '\n'
    · simp [h]
    · rw [if_neg h]
      cases hsp : splitLinesL t with
      | nil => simp
      | cons x r => simp

theorem joinNlL_splitLinesL : ∀ l : List Char, joinNlL (splitLinesL l) = l := by
  intro l
  induction l with
  | nil => rfl
  | cons c t ih =>
    rw [splitLinesL]
    by_cases h : c = '\n'
    · rw [if_pos h]
      cases hsp : splitLinesL t with
      | nil => exact absurd hsp (splitLinesL_ne_nil t)
      | cons x r =>
        rw [joinNlL, List.nil_append, h]
        rw [hsp] at ih
        rw [ih]
    · rw [if_neg h]
      cases hsp : splitLinesL t with
      | nil => exact absurd hsp (splitLinesL_ne_nil t)
      | cons x r =>
        rw [hsp] at ih
        cases r with
        | nil =>
          rw [joinNlL] at ih ⊢
          rw [ih]
        | cons y rs =>
          rw [joinNlL, List.cons_append]
          rw [joinNlL] at ih
          rw [ih]

theorem jsTrimL_ws_lead (pre l : List Char) (h : ∀ c ∈ pre, isWsChar c = true) :
    jsTrimL (pre ++ l) = jsTrimL l := by
  rw [jsTrimL, jsTrimL, List.dropWhile_append_of_pos h]

theorem jsTrimEndL_head_nonws (c : Char) (t : List Char) (h : isWsChar c = false) :
    ∃ t', jsTrimEndL (c :: t) = c :: t' := by
  rw [jsTrimEndL, List.reverse_cons, List.dropWhile_append]
  by_cases hemp : (t.reverse.dropWhile isWsChar).isEmpty
  · rw [if_pos hemp]
    refine ⟨[], ?_⟩
    rw [List.dropWhile_cons_of_neg (by simp [h])]
    simp
  · rw [if_neg hemp]
    exact ⟨(t.reverse.dropWhile isWsChar).reverse, by rw [List.reverse_append]; rfl⟩

theorem jsTrimL_head_nonws (c : Char) (t : List Char) (h : isWsChar c = false) :
    ∃ t', jsTrimL (c :: t) = c :: t' := by
  rw [jsTrimL, List.dropWhile_cons_of_neg (by simp [h])]
  exact jsTrimEndL_head_nonws c t h

theorem leadsWith_dash_of_head : ∀ (t : List Char), leadsWith ['-'] ('-' :: t) = true := by
  intro t; simp [leadsWith]

/-- If a string's own `trimEnd` is itself and it is non-empty, then
`trimEnd` of any text containing it keeps a full copy of it. -/
theorem hasSubstr_jsTrimEndL (a fl c : List Char) (hfl : fl ≠ [])
    (hfix : jsTrimEndL fl = fl) :
    hasSubstr fl (jsTrimEndL (a ++ (fl ++ c))) = true := by
  have hR : fl.reverse.dropWhile isWsChar = fl.reverse := by
    have := congrArg List.reverse hfix
    rw [jsTrimEndL, List.reverse_reverse] at this
    exact this
  have hRev : (a ++ (fl ++ c)).reverse = (c.reverse ++ fl.reverse) ++ a.reverse := by
    rw [List.reverse_append, List.reverse_append]
  rw [jsTrimEndL, hRev, List.dropWhile_append]
  have hinner : (c.reverse ++ fl.reverse).dropWhile isWsChar ≠ [] := by
    rw [List.dropWhile_append]
    by_cases hc : (c.reverse.dropWhile isWsChar).isEmpty
    · rw [if_pos hc, hR]
      simpa using hfl
    · rw [if_neg hc]
      simp only [ne_eq, List.append_eq_nil]
      intro hcon
      rw [List.isEmpty_iff] at hc
      exact hc hcon.1
  have hinnerE : ((c.reverse ++ fl.reverse).dropWhile isWsChar).isEmpty = false := by
    rw [List.isEmpty_eq_false_iff_exists_mem]
    cases hd : (c.reverse ++ fl.reverse).dropWhile isWsChar with
    | nil => exact absurd hd hinner
    | cons x r => exact ⟨x, by simp⟩
  rw [if_neg (by simp [hinnerE])]
  rw [List.dropWhile_append]
  by_cases hc : (c.reverse.dropWhile isWsChar).isEmpty
  · rw [if_pos hc, hR]
    simp only [List.reverse_append, List.reverse_reverse]
    have := hasSubstr_append_mid fl a []
    simpa using this
  · rw [if_neg hc]
    simp only [List.reverse_append, List.reverse_reverse]
    rw [← List.append_assoc]
    exact hasSubstr_append_mid fl a ((c.reverse.dropWhile isWsChar).reverse)

/-! ## Small auxiliary lemmas for the claims -/

theorem hasSubstr_nil_pat : ∀ l : List Char, hasSubstr [] l = true := by
  intro l
  cases l with
  | nil => rfl
  | cons c t => simp [hasSubstr, leadsWith]

theorem hasPatThenWs_nil : ∀ l : List Char, hasPatThenWs [] l = l.any isWsChar := by
  intro l
  induction l with
  | nil => rfl
  | cons c t ih => simp [hasPatThenWs, dropLead, List.any_cons, ih]

theorem lowerL_any_ws (l : List Char) : (lowerL l).any isWsChar = l.any isWsChar := by
  rw [lowerL, List.any_map]
  congr 1
  funext c
  exact isWsChar_toLower c

/-! ## Claims -/

/-- C7, counterexample: for the input `"#a/*/*"` the returned `cleanedTag`
is `"#a/*"`, which still ends with the wildcard suffix, refuting "the
returned cleanedTag never ends with that wildcard suffix". -/
theorem claim_C7_counterexample :
    getIsWildCard "#a/*/*" = ⟨true, "#a/*"⟩ ∧
    jsEndsWith (getIsWildCard "#a/*/*").cleanedTag "/*" = true := by
  decide

/-- C7 (amended): `isWildCard` holds iff the tag ends with the two-character
suffix `/*`; when it does, `cleanedTag` is the input minus exactly that
final suffix (so it may itself still end with `/*` when the input ended
with a doubled suffix); when it does not, `cleanedTag` is the input
unchanged.  The function is total. -/
theorem claim_C7_amended (tag : String) :
    (getIsWildCard tag).isWildCard = jsEndsWith tag "/*" ∧
    (jsEndsWith tag "/*" = true → (getIsWildCard tag).cleanedTag ++ "/*" = tag) ∧
    (jsEndsWith tag "/*" = false → (getIsWildCard tag).cleanedTag = tag) := by
  refine ⟨rfl, ?_, ?_⟩
  · intro h
    have h' : leadsWith (['*', '/'] : List Char) tag.data.reverse = true := h
    obtain ⟨t, ht⟩ := (leadsWith_iff _ _).mp h'
    have htag : tag.data = t.reverse ++ ['/', '*'] := by
      have h2 := congrArg List.reverse ht
      rw [List.reverse_reverse] at h2
      rw [h2, List.reverse_append]
      rfl
    have hslice : sliceDropRight tag.data 2 = t.reverse := by
      rw [htag, sliceDropRight]
      have hlen : (t.reverse ++ ['/', '*']).length - 2 = t.reverse.length := by
        simp
      rw [hlen, List.take_left]
    have hclean : (getIsWildCard tag).cleanedTag = String.mk t.reverse := by
      rw [getIsWildCard]
      simp only [h, if_true, hslice]
    rw [hclean]
    have hsuffix : ("/*" : String) = String.mk ['/', '*'] := rfl
    rw [hsuffix, strMk_append, ← htag]
  · intro h
    rw [getIsWildCard]
    simp [h]

/-- C7 witness: the amended claim at the concrete inputs `"#x/*"` and
`"#y"`. -/
theorem claim_C7_witness :
    (getIsWildCard "#x/*").cleanedTag ++ "/*" = "#x/*" ∧
    (getIsWildCard "#y").cleanedTag = "#y" :=
  ⟨(claim_C7_amended "#x/*").2.1 (by decide), (claim_C7_amended "#y").2.2 (by decide)⟩

/-- C8, counterexample: the empty tag and the wildcard-only tag are not
treated as "no matches": `containsTag "a b" "" = true`, the unit scanner
reports the line `"a"` under the empty key for the empty tag, and the
bullet scanner reports the bullet `"- a"` (twice) under the empty key. -/
theorem claim_C8_counterexample :
    containsTag "a b" "" = true ∧
    findSmallestUnitsContainingTag "a" "" false = [("", ["a"])] ∧
    findBulletListsContainingTag "- a" "" = [("", ["- a", "- a"])] ∧
    containsTag "x" "/*" = true := by
  decide

/-- C8 (amended): no error is ever raised (the functions are total), but an
empty tag and a wildcard-only tag are not treated as "no matches": for the
wildcard-only tag `"/*"` , `containsTag` is always true (the empty cleaned
tag is a substring of everything), and for the empty tag `containsTag`
holds exactly when the text contains a whitespace character (the regex
degenerates to `\s`). -/
theorem claim_C8_amended (s : String) :
    containsTag s "/*" = true ∧ containsTag s "" = s.data.any isWsChar := by
  constructor
  · show hasSubstr (lowerL ("" : String).data) (lowerL s.data) = true
    exact hasSubstr_nil_pat _
  · show hasPatThenWs (lowerL ("" : String).data) (lowerL s.data) = s.data.any isWsChar
    rw [show lowerL ("" : String).data = [] from rfl, hasPatThenWs_nil, lowerL_any_ws]

/-- C10: whatever the title template (including the empty one), the
resolved tag-page title begins with the literal characters `## `: the first
line is always a level-2 markdown heading. -/
theorem claim_C10 (settings : PageSettings) (tagOfInterest : String) :
    ∃ rest, resolveTagPageTitle settings tagOfInterest = "## " ++ rest := by
  rw [resolveTagPageTitle]
  by_cases h : settings.tagPageTitleTemplate = ""
  · rw [if_pos h]
    refine ⟨"Tag Content for " ++ jsReplaceFirst tagOfInterest "*" "", ?_⟩
    have hsplit2 : ("## Tag Content for " : String) = "## " ++ "Tag Content for " := by
      decide
    rw [hsplit2, strAppend_assoc]
  · rw [if_neg h]
    exact ⟨_, rfl⟩

/-- C1, counterexample: for the document `"see #tagged here"` and the
non-wildcard tag `"#tag"`, the unit scanner reports the line under the key
`"#tag"` although the line contains no word-bounded occurrence of the
cleaned tag (the only occurrence is the proper prefix of `#tagged`): the
regex of `findSmallestUnitsContainingTag` carries no word-boundary for
exact queries. -/
theorem claim_C1_counterexample :
    mapLookup (findSmallestUnitsContainingTag "see #tagged here" "#tag" false) "#tag" =
      some ["see #tagged here"] ∧
    specWordBoundedOccurrence "see #tagged here" "#tag" = false := by
  decide

/-- C1 (amended): every string in every value list of the map returned by
`findSmallestUnitsContainingTag` contains a case-insensitive occurrence of
the cleaned tag — not necessarily followed by a word boundary, so an exact
query may match as a proper prefix of a longer tag (see the
counterexample).  Stated for cleaned tags whose lower-cased form is
non-empty and whitespace-free, which covers every real tag. -/
theorem claim_C1_amended (content tag : String) (excludeBullets : Bool)
    (k : String) (ls : List String) (s : String)
    (hp : lowerL (getIsWildCard tag).cleanedTag.data ≠ [])
    (hw : ∀ c ∈ lowerL (getIsWildCard tag).cleanedTag.data, isWsChar c = false)
    (hlk : mapLookup (findSmallestUnitsContainingTag content tag excludeBullets) k = some ls)
    (hs : s ∈ ls) :
    hasSubstr (lowerL (getIsWildCard tag).cleanedTag.data) (lowerL s.data) = true :=
  findSmallestUnits_sound content tag excludeBullets hp hw k ls hlk s hs

/-- C1 witness: the amended claim at the document `"see #tag here"`. -/
theorem claim_C1_witness :
    hasSubstr (lowerL (getIsWildCard "#tag").cleanedTag.data)
      (lowerL ("see #tag here" : String).data) = true :=
  claim_C1_amended "see #tag here" "#tag" false "#tag" ["see #tag here"] "see #tag here"
    (by decide) (by decide) (by decide) (by decide)

/-- C2, counterexample: under the wildcard query `"#a/*"`, a line whose
only candidate is the distinct tag `#ab` is still reported (under the key
`"#a"`): the wildcard regex has no boundary after the cleaned tag, so it
matches the bare character prefix inside `#ab`. -/
theorem claim_C2_counterexample :
    findSmallestUnitsContainingTag "x #ab y" "#a/*" false = [("#a", ["x #ab y"])] ∧
    ([("#a", ["x #ab y"])] : List (String × List String)) ≠ [] := by
  decide

/-- C2 (amended): the wildcard query `#a/*` reports units for lines
containing `#a`, `#a/b`, `#a/b/c` — and also for a line containing only
`#ab`, which it files under the key `"#a"`; and every reported unit
contains a case-insensitive occurrence of the cleaned tag `#a`. -/
theorem claim_C2_amended :
    findSmallestUnitsContainingTag "x #a y\nx #a/b y\nx #a/b/c y\nx #ab y" "#a/*" false =
      [("#a", ["x #a y", "x #ab y"]), ("#a/b", ["x #a/b y"]),
        ("#a/b/c", ["x #a/b/c y"])] ∧
    ∀ (content k : String) (ls : List String) (s : String),
      mapLookup (findSmallestUnitsContainingTag content "#a/*" false) k = some ls →
      s ∈ ls →
      hasSubstr (lowerL (getIsWildCard "#a/*").cleanedTag.data) (lowerL s.data) = true := by
  constructor
  · decide
  · intro content k ls s hlk hs
    exact findSmallestUnits_sound content "#a/*" false (by decide) (by decide) k ls hlk s hs

/-- C2 witness: the amended claim's soundness part at a concrete document. -/
theorem claim_C2_witness :
    hasSubstr (lowerL (getIsWildCard "#a/*").cleanedTag.data)
      (lowerL ("x #a/b y" : String).data) = true :=
  claim_C2_amended.2 "x #a/b y" "#a/b" ["x #a/b y"] "x #a/b y" (by decide) (by decide)

/-- C3, counterexample: on the spec's own example input, the bullet scanner
delivers the subtree as two separate match strings (the trimmed root line
and the indented descendant line), not as one joined `MatchUnit` text; the
consolidated `TagInfo` therefore has two details for `#errand`, none of
which equals the joined text. -/
theorem claim_C3_counterexample :
    mapLookup (findBulletListsContainingTag "- Buy milk #errand\n  - also eggs\n" "#errand")
      "#errand" = some ["- Buy milk #errand", "  - also eggs"] ∧
    consolidateTagInfo "[[note]]" none
        (some (findBulletListsContainingTag "- Buy milk #errand\n  - also eggs\n" "#errand")) ≠
      [("#errand", [⟨"- Buy milk #errand\n  - also eggs", "[[note]]"⟩])] := by
  decide

/-- C3 (amended): the input `"- Buy milk #errand\n  - also eggs\n"` with
query `#errand` in bullets-only mode produces exactly two match entries
under the key `#errand`, in original order — the root bullet line (trimmed)
and its descendant line (indentation preserved) — rather than a single
joined match unit. -/
theorem claim_C3_amended :
    consolidateTagInfo "[[note]]" none
        (some (findBulletListsContainingTag "- Buy milk #errand\n  - also eggs\n" "#errand")) =
      [("#errand", [⟨"- Buy milk #errand", "[[note]]"⟩, ⟨"  - also eggs", "[[note]]"⟩])] := by
  decide

/-- C5, counterexample: a note that is a generated tag page for a
*different* tag (`front-matter query value "#other"`, queried tag `#tag`)
is excluded from scanning by `fetchTagData` — its contribution is dropped —
because the call site of `isTagPage` passes no `tagOfInterest` and so
excludes every tag page regardless of its tag. -/
theorem claim_C5_counterexample :
    fetchTagData [⟨"n1", "#tag stuff\n", some "#other"⟩] ⟨false, true⟩ "#tag" = [] ∧
    processFile ⟨false, true⟩ ⟨"n1", "#tag stuff\n", some "#other"⟩ "#tag" =
      [("#tag", [⟨"#tag stuff", "[[n1]]"⟩])] ∧
    (some "#other" : Option String) ≠ some "#tag" := by
  decide

theorem mergeEntries_extend : ∀ (entries : TagInfo) (acc : TagInfo) (k : String)
    (ds : List TagMatchDetail), mapLookup acc k = some ds →
    ∃ t, mapLookup
      (entries.foldl (fun a p => mapSet a p.1 ((mapLookup a p.1).getD [] ++ p.2)) acc) k =
      some (ds ++ t) := by
  intro entries
  induction entries with
  | nil => intro acc k ds h; exact ⟨[], by simpa using h⟩
  | cons p ps ih =>
    intro acc k ds h
    rw [List.foldl_cons]
    by_cases hk : p.1 = k
    · have hstep : mapLookup (mapSet acc p.1 ((mapLookup acc p.1).getD [] ++ p.2)) k =
          some (ds ++ p.2) := by
        rw [mapLookup_mapSet, if_pos hk, hk, h]
        rfl
      obtain ⟨t, ht⟩ := ih _ k (ds ++ p.2) hstep
      exact ⟨p.2 ++ t, by rw [ht, List.append_assoc]⟩
    · have hstep : mapLookup (mapSet acc p.1 ((mapLookup acc p.1).getD [] ++ p.2)) k =
          some ds := by
        rw [mapLookup_mapSet, if_neg hk]
        exact h
      exact ih _ k ds hstep

theorem mergeEntries_introduce : ∀ (entries : TagInfo) (acc : TagInfo) (k : String)
    (ds : List TagMatchDetail), mapLookup acc k = none → mapLookup entries k = some ds →
    ∃ t, mapLookup
      (entries.foldl (fun a p => mapSet a p.1 ((mapLookup a p.1).getD [] ++ p.2)) acc) k =
      some (ds ++ t) := by
  intro entries
  induction entries with
  | nil => intro acc k ds _ h; cases h
  | cons p ps ih =>
    intro acc k ds hacc h
    rw [List.foldl_cons]
    by_cases hk : p.1 = k
    · have hds : p.2 = ds := by
        rw [mapLookup, if_pos hk] at h
        injection h
      have hstep : mapLookup (mapSet acc p.1 ((mapLookup acc p.1).getD [] ++ p.2)) k =
          some ds := by
        rw [mapLookup_mapSet, if_pos hk, hk, hacc, hds]
        rfl
      exact mergeEntries_extend ps _ k ds hstep
    · have h' : mapLookup ps k = some ds := by
        rw [mapLookup, if_neg hk] at h
        exact h
      have hstep : mapLookup (mapSet acc p.1 ((mapLookup acc p.1).getD [] ++ p.2)) k =
          none := by
        rw [mapLookup_mapSet, if_neg hk]
        exact hacc
      exact ih _ k ds hstep h'

theorem foldMerge_extend : ∀ (tis : List TagInfo) (acc : TagInfo) (k : String)
    (ds : List TagMatchDetail), mapLookup acc k = some ds →
    ∃ t, mapLookup (tis.foldl mergeTagInfoStep acc) k = some (ds ++ t) := by
  intro tis
  induction tis with
  | nil => intro acc k ds h; exact ⟨[], by simpa using h⟩
  | cons ti tis ih =>
    intro acc k ds h
    rw [List.foldl_cons]
    obtain ⟨t1, ht1⟩ := mergeEntries_extend ti acc k ds h
    have ht1' : mapLookup (mergeTagInfoStep acc ti) k = some (ds ++ t1) := ht1
    obtain ⟨t2, ht2⟩ := ih _ k (ds ++ t1) ht1'
    exact ⟨t1 ++ t2, by rw [ht2, List.append_assoc]⟩

/-- C5 (amended): `fetchTagData` excludes a note exactly when its
front-matter query property is set (truthy), no matter which tag it names.
Exclusion direction: a truthy-property note at the head of the corpus
leaves the result unchanged.  Inclusion direction: a falsy-property note is
scanned — every key of its `processFile` result appears in the merged
result, with that note's details at the front of the key's list (followed
by whatever later files contribute). -/
theorem claim_C5_amended (f : MarkdownFile) (rest : List MarkdownFile)
    (settings : PluginSettings) (tagOfInterest : String) :
    (isTagPage f.frontmatterQueryValue none = true →
      fetchTagData (f :: rest) settings tagOfInterest =
        fetchTagData rest settings tagOfInterest) ∧
    (isTagPage f.frontmatterQueryValue none = false →
      ∀ (k : String) (ds : List TagMatchDetail),
        mapLookup (processFile settings f tagOfInterest) k = some ds →
        ∃ t, mapLookup (fetchTagData (f :: rest) settings tagOfInterest) k =
          some (ds ++ t)) := by
  constructor
  · intro h
    rw [fetchTagData, fetchTagData, List.filter_cons]
    simp [h]
  · intro h k ds hds
    rw [fetchTagData, List.filter_cons]
    simp only [h, Bool.not_false, if_pos]
    rw [List.map_cons, List.foldl_cons]
    have hbase : ∃ t1, mapLookup
        (mergeTagInfoStep [] (processFile settings f tagOfInterest)) k =
        some (ds ++ t1) := by
      rw [mergeTagInfoStep]
      exact mergeEntries_introduce _ [] k ds rfl hds
    obtain ⟨t1, ht1⟩ := hbase
    obtain ⟨t2, ht2⟩ := foldMerge_extend
      ((rest.filter (fun f => !isTagPage f.frontmatterQueryValue none)).map
        (fun f => processFile settings f tagOfInterest)) _ k (ds ++ t1) ht1
    exact ⟨t1 ++ t2, by rw [ht2, List.append_assoc]⟩

/-- C5 witness: both directions of the amended claim at concrete one-note
vaults — a tag page for a different tag is dropped; a plain note's matches
are merged into the result. -/
theorem claim_C5_witness :
    fetchTagData [⟨"n2", "#tag stuff\n", some "#different"⟩] ⟨false, true⟩ "#tag" =
      fetchTagData [] ⟨false, true⟩ "#tag" ∧
    (∃ t, mapLookup (fetchTagData [⟨"n3", "#tag stuff\n", none⟩] ⟨false, true⟩ "#tag")
        "#tag" = some ([⟨"#tag stuff", "[[n3]]"⟩] ++ t)) :=
  ⟨(claim_C5_amended ⟨"n2", "#tag stuff\n", some "#different"⟩ [] ⟨false, true⟩
      "#tag").1 (by decide),
    (claim_C5_amended ⟨"n3", "#tag stuff\n", none⟩ [] ⟨false, true⟩ "#tag").2
      (by decide) "#tag" [⟨"#tag stuff", "[[n3]]"⟩] (by decide)⟩

/-- C4, counterexample: with two equal-length variant keys inserted in the
order `#b`, `#a`, the synthesized page renders the `### #b` subsection
before `### #a` — the sort comparator is key length only and ECMAScript's
stable sort keeps insertion order for ties, so equal-length keys are *not*
ordered alphabetically. -/
theorem claim_C4_counterexample :
    generateTagPageContent noResolveEnv ⟨"", true⟩
        [("#b", [⟨"x #b", "[[f1]]", "f1.md"⟩]), ("#a", [⟨"y #a", "[[f2]]", "f2.md"⟩])]
        "#t" [] =
      "## Tag Content for #t\n### #b\n- x #b [[f1]]\n### #a\n- y #a [[f2]]" ∧
    ("## Tag Content for #t\n### #b\n- x #b [[f1]]\n### #a\n- y #a [[f2]]" : String) ≠
      "## Tag Content for #t\n### #a\n- y #a [[f2]]\n### #b\n- x #b [[f1]]" := by
  decide

/-- C4 (amended): with more than one variant key the output renders one
`###` subsection per key (the sorted list is a permutation of the input);
the order is ascending key length; equal-length ties keep the group map's
insertion order (the sort is stable: filtering each length class gives the
original sublist) — not alphabetical order; with at most one key no
subheading is rendered. -/
theorem claim_C4_amended (env : EmbedEnv) (settings : PageSettings)
    (tagsInfo : List (String × List PageMatchDetail)) (tagOfInterest : String)
    (files : List FrontmatterFile) :
    (1 < tagsInfo.length →
      generateTagSections env settings.linkAtEnd tagsInfo =
        (jsSortByKeyLen tagsInfo).flatMap
          (fun p => ("### " ++ p.1) :: renderDetails env settings.linkAtEnd p.2) ∧
      List.Pairwise
        (fun a b : String × List PageMatchDetail => a.1.length ≤ b.1.length)
        (jsSortByKeyLen tagsInfo) ∧
      List.Perm (jsSortByKeyLen tagsInfo) tagsInfo ∧
      ∀ n, (jsSortByKeyLen tagsInfo).filter (fun p => decide (p.1.length = n)) =
        tagsInfo.filter (fun p => decide (p.1.length = n))) ∧
    (¬1 < tagsInfo.length →
      generateTagSections env settings.linkAtEnd tagsInfo =
        tagsInfo.flatMap (fun p => renderDetails env settings.linkAtEnd p.2)) ∧
    generateTagPageContentList env settings tagsInfo tagOfInterest files =
      resolveTagPageTitle settings tagOfInterest
        :: (generateTagSections env settings.linkAtEnd tagsInfo ++
            frontmatterSection (getIsWildCard tagOfInterest).cleanedTag files
              tagOfInterest) := by
  refine ⟨?_, ?_, rfl⟩
  · intro h
    refine ⟨?_, jsSortByKeyLen_pairwise _, jsSortByKeyLen_perm _,
      fun n => jsSortByKeyLen_filter n _⟩
    rw [generateTagSections, if_pos h]
  · intro h
    rw [generateTagSections, if_neg h]

/-- C4 witness: the amended claim's multi-key part at concrete inputs. -/
theorem claim_C4_witness :
    generateTagSections noResolveEnv true
        [("#b", [⟨"x #b", "[[f1]]", "f1.md"⟩]), ("#a", [⟨"y #a", "[[f2]]", "f2.md"⟩])] =
      (jsSortByKeyLen
          [("#b", [⟨"x #b", "[[f1]]", "f1.md"⟩]), ("#a", [⟨"y #a", "[[f2]]", "f2.md"⟩])]).flatMap
        (fun p => ("### " ++ p.1) :: renderDetails noResolveEnv true p.2) :=
  ((claim_C4_amended noResolveEnv ⟨"", true⟩
      [("#b", [⟨"x #b", "[[f1]]", "f1.md"⟩]), ("#a", [⟨"y #a", "[[f2]]", "f2.md"⟩])]
      "#t" []).1 (by decide)).1

theorem splitLinesStr_cons (r first : String) (rest : List String)
    (h : splitLinesStr r = first :: rest) :
    splitLinesL r.data = first.data :: rest.map String.data := by
  rw [splitLinesStr] at h
  have h2 := congrArg (List.map String.data) h
  rw [List.map_map] at h2
  have hcomp : (String.data ∘ String.mk) = (id : List Char → List Char) :=
    funext (fun _ => rfl)
  rw [hcomp, List.map_id] at h2
  rw [h2, List.map_cons]

theorem joinNlL_cons (x : List Char) (M : List (List Char)) :
    ∃ tail, joinNlL (x :: M) = x ++ tail := by
  cases M with
  | nil => exact ⟨[], by rw [joinNlL, List.append_nil]⟩
  | cons y t => exact ⟨'\n' :: joinNlL (y :: t), rfl⟩

theorem bulletIndentMatch_dash (x : List Char) :
    bulletIndentMatch ('-' :: x) = some 0 := by
  rw [bulletIndentMatch, spanP_eq, List.dropWhile_cons_of_neg (by decide),
    List.takeWhile_cons_of_neg (by decide)]
  rfl

/-- C6: for every captured match, `processTagMatch` splices the provenance
link into the root bullet line only.  (a) When the resolved text's first
line is an unindented bullet (`- …`), the output is the first line with the
link appended at end-of-line (`linkAtEnd`) or spliced right after the
bullet marker (`!linkAtEnd`, where the first line also provably still
contains the link), with every further line passed through unchanged.
(b) When the first line is an indented bullet (a captured descendant line),
the output is the resolved text verbatim — no link is added to descendant
lines.  (c) Plain prose is wrapped in a new bullet with the link placed the
same way. -/
theorem claim_C6 (env : EmbedEnv) (sourcePath fullTag fileLink : String)
    (linkAtEnd : Bool) (first : String) (rest : List String)
    (hsplit : splitLinesStr (resolveRelativeEmbeds env sourcePath fullTag) =
      first :: rest) :
    (leadsWith ['-', ' '] first.data = true →
      (linkAtEnd = true →
        processTagMatch env fullTag fileLink sourcePath true =
          joinNl ((first ++ " " ++ fileLink) :: rest)) ∧
      (linkAtEnd = false → ∀ pr, bulletMarkerMatch first.data = some pr →
        processTagMatch env fullTag fileLink sourcePath false =
          joinNl (String.mk (jsTrimEndL (pr.1 ++ fileLink.data ++ ' ' :: pr.2)) :: rest) ∧
        (fileLink.data ≠ [] → jsTrimEndL fileLink.data = fileLink.data →
          hasSubstr fileLink.data
            (jsTrimEndL (pr.1 ++ fileLink.data ++ ' ' :: pr.2)) = true))) ∧
    (∀ n, bulletIndentMatch first.data = some n → 0 < n →
      processTagMatch env fullTag fileLink sourcePath linkAtEnd =
        resolveRelativeEmbeds env sourcePath fullTag) ∧
    (leadsWith ['-'] (jsTrimL (resolveRelativeEmbeds env sourcePath fullTag).data) =
        false →
      processTagMatch env fullTag fileLink sourcePath linkAtEnd =
        if linkAtEnd then
          String.mk (jsTrimEndL ('-' :: ' ' ::
            (resolveRelativeEmbeds env sourcePath fullTag).data ++ ' ' :: fileLink.data))
        else
          String.mk (jsTrimEndL ('-' :: ' ' :: fileLink.data ++ ' ' ::
            (resolveRelativeEmbeds env sourcePath fullTag).data))) := by
  have hdata := splitLinesStr_cons _ _ _ hsplit
  have hrdata : (resolveRelativeEmbeds env sourcePath fullTag).data =
      joinNlL (first.data :: rest.map String.data) := by
    rw [← joinNlL_splitLinesL (resolveRelativeEmbeds env sourcePath fullTag).data, hdata]
  obtain ⟨tail, htail⟩ := joinNlL_cons first.data (rest.map String.data)
  refine ⟨?_, ?_, ?_⟩
  · intro hfirst
    obtain ⟨f', hf⟩ := (leadsWith_iff ['-', ' '] first.data).mp hfirst
    have hrcons : (resolveRelativeEmbeds env sourcePath fullTag).data =
        '-' :: (' ' :: (f' ++ tail)) := by
      rw [hrdata, htail, hf]
      rfl
    have hcond : leadsWith ['-']
        (jsTrimL (resolveRelativeEmbeds env sourcePath fullTag).data) = true := by
      rw [hrcons]
      obtain ⟨t', ht'⟩ := jsTrimL_head_nonws '-' (' ' :: (f' ++ tail)) (by decide)
      rw [ht']
      simp [leadsWith]
    have hind : bulletIndentMatch first.data = some 0 := by
      rw [hf]
      exact bulletIndentMatch_dash (' ' :: f')
    constructor
    · intro hle
      subst hle
      simp only [processTagMatch, hcond, if_true, hdata, hind]
      rw [spliceRootBullet, if_pos rfl]
      rw [joinNl]
      simp [strData_append, List.append_assoc]
    · intro hle pr hpr
      subst hle
      constructor
      · simp only [processTagMatch, hcond, if_true, hdata, hind]
        rw [spliceRootBullet, if_neg (by simp), hpr]
        rw [joinNl]
        simp
      · intro h1 h2
        rw [List.append_assoc]
        exact hasSubstr_jsTrimEndL pr.1 fileLink.data (' ' :: pr.2) h1 h2
  · intro n hind hpos
    have hspan := spanP_eq isWsChar first.data
    rw [bulletIndentMatch, hspan] at hind
    have hcond : leadsWith ['-']
        (jsTrimL (resolveRelativeEmbeds env sourcePath fullTag).data) = true := by
      obtain ⟨s, hs⟩ : ∃ s, first.data.dropWhile isWsChar = '-' :: s := by
        cases hd : first.data.dropWhile isWsChar with
        | nil => rw [hd] at hind; cases hind
        | cons c sx =>
          rw [hd] at hind
          by_cases hc : c = '-'
          · subst hc; exact ⟨sx, rfl⟩
          · exfalso
            have : (match c :: sx with
                | '-' :: _ => some (first.data.takeWhile isWsChar).length
                | _ => (none : Option Nat)) = none := by
              split
              · next heq =>
                  exfalso
                  injection heq with hc1 _
                  exact hc hc1
              · rfl
            rw [this] at hind
            cases hind
      have hfirstdec : first.data = first.data.takeWhile isWsChar ++ '-' :: s := by
        conv_lhs => rw [← List.takeWhile_append_dropWhile (p := isWsChar) (l := first.data)]
        rw [hs]
      rw [hrdata, htail, hfirstdec, List.append_assoc]
      rw [show ('-' :: s) ++ tail = '-' :: (s ++ tail) from rfl]
      rw [jsTrimL_ws_lead _ _ (mem_takeWhile_ws _ _)]
      obtain ⟨t', ht'⟩ := jsTrimL_head_nonws '-' (s ++ tail) (by decide)
      rw [ht']
      simp [leadsWith]
    have hind' : bulletIndentMatch first.data = some n := by
      rw [bulletIndentMatch, hspan]
      exact hind
    simp only [processTagMatch, hcond, if_true, hdata, hind']
    rw [if_pos hpos]
  · intro hcond
    simp only [processTagMatch, hcond]
    cases linkAtEnd <;> simp

/-- C6 witness: the claim's root-bullet case at a concrete subtree. -/
theorem claim_C6_witness :
    processTagMatch noResolveEnv "- task #x\n  - sub" "[[a]]" "a.md" true =
      joinNl (("- task #x" ++ " " ++ "[[a]]") :: ["  - sub"]) ∧
    joinNl (("- task #x" ++ " " ++ "[[a]]") :: ["  - sub"]) = "- task #x [[a]]\n  - sub" :=
  ⟨((claim_C6 noResolveEnv "a.md" "- task #x\n  - sub" "[[a]]" true "- task #x" ["  - sub"]
      (by decide)).1 (by decide)).1 rfl, by decide⟩

theorem wikiEmbedPass_nil (env : EmbedEnv) (sp : String) (fuel : Nat) :
    wikiEmbedPass env sp fuel [] = [] := by
  cases fuel <;> rfl

theorem mdImagePass_nil (env : EmbedEnv) (sp : String) (fuel : Nat) :
    mdImagePass env sp fuel [] = [] := by
  cases fuel <;> rfl

theorem wikiEmbedPass_step_other (env : EmbedEnv) (sp : String) (fuel : Nat)
    (c : Char) (t : List Char) (hc : c ≠ '!') :
    wikiEmbedPass env sp (fuel + 1) (c :: t) = c :: wikiEmbedPass env sp fuel t := by
  rw [wikiEmbedPass.eq_def]
  split
  · rename_i heq
    omega
  · rename_i f heq
    have hf : f = fuel := by omega
    subst hf
    split
    · rename_i heq2
      cases heq2
    · rename_i t' heq2
      injection heq2 with h1 _
      exact absurd h1 hc
    · rename_i c' t' heq2
      injection heq2 with h1 h2
      rw [← h1, ← h2]

theorem mdImagePass_step_other (env : EmbedEnv) (sp : String) (fuel : Nat)
    (c : Char) (t : List Char) (hc : c ≠ '!') :
    mdImagePass env sp (fuel + 1) (c :: t) = c :: mdImagePass env sp fuel t := by
  rw [mdImagePass.eq_def]
  split
  · rename_i heq
    omega
  · rename_i f heq
    have hf : f = fuel := by omega
    subst hf
    split
    · rename_i heq2
      cases heq2
    · rename_i t' heq2
      injection heq2 with h1 _
      exact absurd h1 hc
    · rename_i c' t' heq2
      injection heq2 with h1 h2
      rw [← h1, ← h2]

theorem wikiEmbedPass_noBang (env : EmbedEnv) (sp : String) :
    ∀ (fuel : Nat) (l : List Char), (∀ c ∈ l, c ≠ '!') →
      wikiEmbedPass env sp fuel l = l := by
  intro fuel
  induction fuel with
  | zero => intro l _; rfl
  | succ fuel ih =>
    intro l hl
    cases l with
    | nil => rfl
    | cons c t =>
      rw [wikiEmbedPass_step_other env sp fuel c t (hl c (List.mem_cons_self c t)),
        ih t (fun x hx => hl x (List.mem_cons_of_mem c hx))]

theorem mdImagePass_noBang (env : EmbedEnv) (sp : String) :
    ∀ (fuel : Nat) (l : List Char), (∀ c ∈ l, c ≠ '!') →
      mdImagePass env sp fuel l = l := by
  intro fuel
  induction fuel with
  | zero => intro l _; rfl
  | succ fuel ih =>
    intro l hl
    cases l with
    | nil => rfl
    | cons c t =>
      rw [mdImagePass_step_other env sp fuel c t (hl c (List.mem_cons_self c t)),
        ih t (fun x hx => hl x (List.mem_cons_of_mem c hx))]

theorem spanP_exact (p : Char → Bool) (a b : List Char)
    (ha : ∀ c ∈ a, p c = true) (hb : ∀ x b', b = x :: b' → p x = false) :
    spanP p (a ++ b) = (a, b) := by
  rw [spanP_eq]
  have h3 : b.takeWhile p = [] := by
    cases b with
    | nil => rfl
    | cons x b' => exact List.takeWhile_cons_of_neg (by simp [hb x b' rfl])
  have h4 : b.dropWhile p = b := by
    cases b with
    | nil => rfl
    | cons x b' => exact List.dropWhile_cons_of_neg (by simp [hb x b' rfl])
  rw [List.takeWhile_append_of_pos ha, List.dropWhile_append_of_pos ha, h3, h4,
    List.append_nil]

theorem splitOnCharL_no_sep (sep : Char) :
    ∀ l : List Char, (∀ c ∈ l, c ≠ sep) → splitOnCharL sep l = [l] := by
  intro l
  induction l with
  | nil => intro _; rfl
  | cons c t ih =>
    intro h
    rw [splitOnCharL, if_neg (h c (List.mem_cons_self c t)),
      ih (fun x hx => h x (List.mem_cons_of_mem c hx))]

theorem parseTargetSuffix_clean (inner : List Char) (hne : inner ≠ [])
    (h : ∀ c ∈ inner, c ≠ '#' ∧ c ≠ '^') :
    parseTargetSuffix inner = some (inner, []) := by
  rw [parseTargetSuffix]
  have hspan : spanP (fun c => !(c = '#' || c = '^')) inner = (inner, []) := by
    have := spanP_exact (fun c => !(c = '#' || c = '^')) inner []
      (fun c hc => by simp [(h c hc).1, (h c hc).2])
      (fun x b' hx => by cases hx)
    simpa using this
  rw [hspan]
  have hie : inner.isEmpty = false := by
    cases inner with
    | nil => exact absurd rfl hne
    | cons c t => rfl
  simp [hie]

theorem wikiEmbedPass_step_wiki (env : EmbedEnv) (sp : String) (fuel : Nat)
    (t : List Char) :
    wikiEmbedPass env sp (fuel + 1) ('!' :: '[' :: '[' :: t) =
      (match (spanP (fun c => !(c = ']')) t).2 with
       | ']' :: ']' :: r =>
         if (spanP (fun c => !(c = ']')) t).1.isEmpty then
           '!' :: wikiEmbedPass env sp fuel ('[' :: '[' :: t)
         else wikiReplace env sp (spanP (fun c => !(c = ']')) t).1 ++
           wikiEmbedPass env sp fuel r
       | _ => '!' :: wikiEmbedPass env sp fuel ('[' :: '[' :: t)) := rfl

theorem wikiEmbedPass_step_match (env : EmbedEnv) (sp : String) (fuel : Nat)
    (inner rs : List Char) (hne : inner ≠ []) (hnb : ∀ c ∈ inner, c ≠ ']') :
    wikiEmbedPass env sp (fuel + 1) ('!' :: '[' :: '[' :: (inner ++ ']' :: ']' :: rs)) =
      wikiReplace env sp inner ++ wikiEmbedPass env sp fuel rs := by
  rw [wikiEmbedPass_step_wiki]
  have hspan : spanP (fun c => !(c = ']')) (inner ++ ']' :: ']' :: rs) =
      (inner, ']' :: ']' :: rs) :=
    spanP_exact _ inner (']' :: ']' :: rs) (fun c hc => by simp [hnb c hc])
      (fun x b' hx => by injection hx with h1 _; rw [← h1]; simp)
  rw [hspan]
  have hie : inner.isEmpty = false := by
    cases inner with
    | nil => exact absurd rfl hne
    | cons c t => rfl
  simp [hie]

theorem wikiEmbedPass_step_notwiki (env : EmbedEnv) (sp : String) (fuel : Nat)
    (l2 : List Char) (h : ∀ t', l2 ≠ '[' :: t') :
    wikiEmbedPass env sp (fuel + 1) ('!' :: '[' :: l2) =
      '!' :: wikiEmbedPass env sp fuel ('[' :: l2) := by
  rw [wikiEmbedPass.eq_def]
  split
  · rename_i heq
    omega
  · rename_i f heq
    have hf : f = fuel := by omega
    subst hf
    split
    · rename_i heq2
      cases heq2
    · rename_i t' heq2
      injection heq2 with _ heq3
      injection heq3 with _ heq4
      exact absurd heq4 (h t')
    · rename_i c' t' heq2
      injection heq2 with h1 h2
      rw [← h1, ← h2]

theorem mdImagePass_step_md (env : EmbedEnv) (sp : String) (fuel : Nat)
    (t : List Char) :
    mdImagePass env sp (fuel + 1) ('!' :: '[' :: t) =
      (match (spanP (fun c => !(c = ']')) t).2 with
       | ']' :: '(' :: t2 =>
         (match (spanP (fun c => !(c = ')')) t2).2 with
          | ')' :: r =>
            if (spanP (fun c => !(c = ')')) t2).1.isEmpty then
              '!' :: mdImagePass env sp fuel ('[' :: t)
            else mdReplace env sp (spanP (fun c => !(c = ']')) t).1
              (spanP (fun c => !(c = ')')) t2).1 ++ mdImagePass env sp fuel r
          | _ => '!' :: mdImagePass env sp fuel ('[' :: t))
       | _ => '!' :: mdImagePass env sp fuel ('[' :: t)) := rfl

theorem mdImagePass_step_match (env : EmbedEnv) (sp : String) (fuel : Nat)
    (alt url rs : List Char) (halt : ∀ c ∈ alt, c ≠ ']') (hune : url ≠ [])
    (hup : ∀ c ∈ url, c ≠ ')') :
    mdImagePass env sp (fuel + 1) ('!' :: '[' :: (alt ++ ']' :: '(' :: (url ++ ')' :: rs))) =
      mdReplace env sp alt url ++ mdImagePass env sp fuel rs := by
  rw [mdImagePass_step_md]
  have hspanA : spanP (fun c => !(c = ']')) (alt ++ ']' :: '(' :: (url ++ ')' :: rs)) =
      (alt, ']' :: '(' :: (url ++ ')' :: rs)) :=
    spanP_exact _ alt (']' :: '(' :: (url ++ ')' :: rs))
      (fun c hc => by simp [halt c hc])
      (fun x b' hx => by injection hx with h1 _; rw [← h1]; simp)
  have hspanU : spanP (fun c => !(c = ')')) (url ++ ')' :: rs) = (url, ')' :: rs) :=
    spanP_exact _ url (')' :: rs) (fun c hc => by simp [hup c hc])
      (fun x b' hx => by injection hx with h1 _; rw [← h1]; simp)
  have hue : url.isEmpty = false := by
    cases url with
    | nil => exact absurd rfl hune
    | cons c t => rfl
  rw [hspanA]
  simp [hspanU, hue]

theorem mdImagePass_wiki_keep (env : EmbedEnv) (sp : String) (fuel : Nat)
    (inner : List Char) (hnb : ∀ c ∈ inner, c ≠ ']') (hbang : ∀ c ∈ inner, c ≠ '!') :
    mdImagePass env sp (fuel + 1) ('!' :: '[' :: '[' :: (inner ++ [']', ']'])) =
      '!' :: '[' :: '[' :: (inner ++ [']', ']']) := by
  rw [mdImagePass_step_md]
  have hspanA : spanP (fun c => !(c = ']')) ('[' :: (inner ++ [']', ']'])) =
      ('[' :: inner, [']', ']']) := by
    rw [← List.cons_append]
    exact spanP_exact _ ('[' :: inner) [']', ']']
      (fun c hc => by
        rcases List.mem_cons.mp hc with rfl | hc'
        · simp
        · simp [hnb c hc'])
      (fun x b' hx => by injection hx with h1 _; rw [← h1]; simp)
  rw [hspanA]
  have hnb2 : ∀ c ∈ ('[' : Char) :: ('[' :: (inner ++ [']', ']'])), c ≠ '!' := by
    intro c hc
    rcases List.mem_cons.mp hc with rfl | hc1
    · decide
    rcases List.mem_cons.mp hc1 with rfl | hc2
    · decide
    rcases List.mem_append.mp hc2 with hc3 | hc3
    · exact hbang c hc3
    · rcases List.mem_cons.mp hc3 with rfl | hc4
      · decide
      rcases List.mem_cons.mp hc4 with rfl | hc5
      · decide
      · cases hc5
  simp [mdImagePass_noBang env sp fuel _ hnb2]

theorem wikiReplace_unresolved (env : EmbedEnv) (sp : String) (inner : List Char)
    (hne : inner ≠ []) (hcl : ∀ c ∈ inner, c ≠ '|' ∧ c ≠ '#' ∧ c ≠ '^')
    (hres : env.getFirstLinkpathDest (String.mk inner) sp = none) :
    wikiReplace env sp inner = '!' :: '[' :: '[' :: (inner ++ [']', ']']) := by
  rw [wikiReplace, splitOnCharL_no_sep '|' inner (fun c hc => (hcl c hc).1)]
  simp only [List.headD_cons]
  rw [parseTargetSuffix_clean inner hne (fun c hc => ⟨(hcl c hc).2.1, (hcl c hc).2.2⟩)]
  simp [hres]

theorem wikiReplace_resolved (env : EmbedEnv) (sp : String) (inner : List Char)
    (p : String) (hne : inner ≠ [])
    (hcl : ∀ c ∈ inner, c ≠ '|' ∧ c ≠ '#' ∧ c ≠ '^')
    (hres : env.getFirstLinkpathDest (String.mk inner) sp = some p) :
    wikiReplace env sp inner = '!' :: '[' :: '[' :: (p.data ++ [']', ']']) := by
  rw [wikiReplace, splitOnCharL_no_sep '|' inner (fun c hc => (hcl c hc).1)]
  simp only [List.headD_cons]
  rw [parseTargetSuffix_clean inner hne (fun c hc => ⟨(hcl c hc).2.1, (hcl c hc).2.2⟩)]
  simp [hres]

theorem mdReplace_fallback (env : EmbedEnv) (sp : String) (alt url : List Char)
    (hfix : stripAngle (jsTrimL url) = url)
    (hscheme : startsWithSchemeOrAnchor url = false)
    (hres : env.getFirstLinkpathDest (String.mk url) sp = none) :
    mdReplace env sp alt url =
      '!' :: '[' :: (alt ++ ']' :: '(' ::
        (env.joinAndNormalizePath (env.posixDirname sp) (String.mk url)).data ++ [')']) := by
  rw [mdReplace, hfix, hscheme]
  simp [hres]

/-- C9, counterexample: a wiki embed whose target does not resolve is kept
*verbatim*, not rewritten to the best-effort path join of the source
directory and the raw target (`notes/missing` here): the unresolvable-wiki
branch of `resolveRelativeEmbeds` returns the original match unchanged. -/
theorem claim_C9_counterexample :
    resolveRelativeEmbeds noResolveEnv "notes/a.md" "![[missing]]" = "![[missing]]" ∧
    ("![[missing]]" : String) ≠ "![[notes/missing]]" := by
  decide

theorem mdReplace_external (env : EmbedEnv) (sp : String) (alt url : List Char)
    (hfix : stripAngle (jsTrimL url) = url)
    (hscheme : startsWithSchemeOrAnchor url = true) :
    mdReplace env sp alt url = '!' :: '[' :: (alt ++ ']' :: '(' :: url ++ [')']) := by
  rw [mdReplace, hfix, hscheme]
  simp

/-- C9 (amended): `resolveRelativeEmbeds` is total (the model is a pure
function, so it never throws) and never removes a reference, universally
over every environment, source path and delimiter-clean embed target:
(1) a wiki embed whose target does not resolve is kept verbatim - not
rewritten to a path join; (2) a wiki embed whose target resolves to path
`p` is rewritten to the embed of `p`; (3) a markdown image whose relative
url does not resolve is rewritten so that its target is the normalized
join of the source note's directory and the url; (4) a markdown image
with an external or anchor url is kept unchanged. -/
theorem claim_C9_amended (env : EmbedEnv) (sourcePath : String)
    (inner : List Char) (hne : inner ≠ [])
    (hcl : ∀ c ∈ inner, c ≠ ']' ∧ c ≠ '|' ∧ c ≠ '#' ∧ c ≠ '^' ∧ c ≠ '!') :
    (env.getFirstLinkpathDest (String.mk inner) sourcePath = none →
      resolveRelativeEmbeds env sourcePath
          (String.mk ('!' :: '[' :: '[' :: (inner ++ [']', ']']))) =
        String.mk ('!' :: '[' :: '[' :: (inner ++ [']', ']']))) ∧
    (∀ p : String,
      env.getFirstLinkpathDest (String.mk inner) sourcePath = some p →
      (∀ c ∈ p.data, c ≠ ']' ∧ c ≠ '!') →
      resolveRelativeEmbeds env sourcePath
          (String.mk ('!' :: '[' :: '[' :: (inner ++ [']', ']']))) =
        String.mk ('!' :: '[' :: '[' :: (p.data ++ [']', ']']))) ∧
    (∀ alt url : List Char,
      (∀ c ∈ alt, c ≠ ']' ∧ c ≠ '[' ∧ c ≠ '!') →
      url ≠ [] → (∀ c ∈ url, c ≠ ')' ∧ c ≠ '!') →
      stripAngle (jsTrimL url) = url →
      startsWithSchemeOrAnchor url = false →
      env.getFirstLinkpathDest (String.mk url) sourcePath = none →
      resolveRelativeEmbeds env sourcePath
          (String.mk ('!' :: '[' :: (alt ++ ']' :: '(' :: (url ++ [')'])))) =
        String.mk ('!' :: '[' :: (alt ++ ']' :: '(' ::
          (env.joinAndNormalizePath (env.posixDirname sourcePath)
            (String.mk url)).data ++ [')']))) ∧
    (∀ alt url : List Char,
      (∀ c ∈ alt, c ≠ ']' ∧ c ≠ '[' ∧ c ≠ '!') →
      url ≠ [] → (∀ c ∈ url, c ≠ ')' ∧ c ≠ '!') →
      stripAngle (jsTrimL url) = url →
      startsWithSchemeOrAnchor url = true →
      resolveRelativeEmbeds env sourcePath
          (String.mk ('!' :: '[' :: (alt ++ ']' :: '(' :: (url ++ [')'])))) =
        String.mk ('!' :: '[' :: (alt ++ ']' :: '(' :: (url ++ [')'])))) := by
  have hnb : ∀ c ∈ inner, c ≠ ']' := fun c hc => (hcl c hc).1
  have hbang : ∀ c ∈ inner, c ≠ '!' := fun c hc => (hcl c hc).2.2.2.2
  have hcl3 : ∀ c ∈ inner, c ≠ '|' ∧ c ≠ '#' ∧ c ≠ '^' :=
    fun c hc => ⟨(hcl c hc).2.1, (hcl c hc).2.2.1, (hcl c hc).2.2.2.1⟩
  have hd : (String.mk ('!' :: '[' :: '[' :: (inner ++ [']', ']']))).data =
      '!' :: '[' :: '[' :: (inner ++ [']', ']']) := rfl
  refine ⟨fun hres => ?_, fun p hres hp => ?_,
    fun alt url halt hune hup hfix hscheme hres => ?_,
    fun alt url halt hune hup hfix hscheme => ?_⟩
  · simp only [resolveRelativeEmbeds]
    rw [wikiEmbedPass_step_match env sourcePath _ inner [] hne hnb,
      wikiEmbedPass_nil, wikiReplace_unresolved env sourcePath inner hne hcl3 hres,
      List.append_nil, mdImagePass_wiki_keep env sourcePath _ inner hnb hbang]
  · simp only [resolveRelativeEmbeds]
    rw [wikiEmbedPass_step_match env sourcePath _ inner [] hne hnb,
      wikiEmbedPass_nil, wikiReplace_resolved env sourcePath inner p hne hcl3 hres,
      List.append_nil, mdImagePass_wiki_keep env sourcePath _ p.data
        (fun c hc => (hp c hc).1) (fun c hc => (hp c hc).2)]
  · have hnw : ∀ t', alt ++ ']' :: '(' :: (url ++ [')']) ≠ '[' :: t' := by
      intro t' heq
      cases alt with
      | nil =>
        rw [List.nil_append] at heq
        injection heq with h1 _
        exact absurd h1 (by decide)
      | cons a as =>
        rw [List.cons_append] at heq
        injection heq with h1 _
        exact absurd h1 ((halt a (List.mem_cons_self a as)).2.1)
    have hnb2 : ∀ c ∈ ('[' : Char) :: (alt ++ ']' :: '(' :: (url ++ [')'])),
        c ≠ '!' := by
      intro c hc
      simp only [List.mem_cons, List.mem_append] at hc
      rcases hc with rfl | hc
      · decide
      rcases hc with hc | hc
      · exact (halt c hc).2.2
      rcases hc with rfl | hc
      · decide
      rcases hc with rfl | hc
      · decide
      rcases hc with hc | hc
      · exact (hup c hc).2
      rcases hc with rfl | hc
      · decide
      · cases hc
    have hd3 : (String.mk ('!' :: '[' :: (alt ++ ']' :: '(' :: (url ++ [')'])))).data =
        '!' :: '[' :: (alt ++ ']' :: '(' :: (url ++ [')'])) := rfl
    simp only [resolveRelativeEmbeds]
    rw [wikiEmbedPass_step_notwiki env sourcePath _ _ hnw,
      wikiEmbedPass_noBang env sourcePath _ _ hnb2,
      mdImagePass_step_match env sourcePath _ alt url []
        (fun c hc => (halt c hc).1) hune (fun c hc => (hup c hc).1),
      mdImagePass_nil, mdReplace_fallback env sourcePath alt url hfix hscheme hres,
      List.append_nil]
  · have hnw : ∀ t', alt ++ ']' :: '(' :: (url ++ [')']) ≠ '[' :: t' := by
      intro t' heq
      cases alt with
      | nil =>
        rw [List.nil_append] at heq
        injection heq with h1 _
        exact absurd h1 (by decide)
      | cons a as =>
        rw [List.cons_append] at heq
        injection heq with h1 _
        exact absurd h1 ((halt a (List.mem_cons_self a as)).2.1)
    have hnb2 : ∀ c ∈ ('[' : Char) :: (alt ++ ']' :: '(' :: (url ++ [')'])),
        c ≠ '!' := by
      intro c hc
      simp only [List.mem_cons, List.mem_append] at hc
      rcases hc with rfl | hc
      · decide
      rcases hc with hc | hc
      · exact (halt c hc).2.2
      rcases hc with rfl | hc
      · decide
      rcases hc with rfl | hc
      · decide
      rcases hc with hc | hc
      · exact (hup c hc).2
      rcases hc with rfl | hc
      · decide
      · cases hc
    have hd3 : (String.mk ('!' :: '[' :: (alt ++ ']' :: '(' :: (url ++ [')'])))).data =
        '!' :: '[' :: (alt ++ ']' :: '(' :: (url ++ [')'])) := rfl
    simp only [resolveRelativeEmbeds]
    rw [wikiEmbedPass_step_notwiki env sourcePath _ _ hnw,
      wikiEmbedPass_noBang env sourcePath _ _ hnb2,
      mdImagePass_step_match env sourcePath _ alt url []
        (fun c hc => (halt c hc).1) hune (fun c hc => (hup c hc).1),
      mdImagePass_nil, mdReplace_external env sourcePath alt url hfix hscheme,
      List.append_nil]
    simp only [List.append_assoc, List.cons_append]

/-- C9, witness: the amended theorem applied at concrete inputs - the
resolvable wiki embed of target `note` in environment `resolveNoteEnv` is
rewritten to its resolved vault path, and the unresolvable image
`pic.png` is rewritten to the join of the source directory and the url. -/
theorem claim_C9_witness :
    (('n' :: 'o' :: 't' :: 'e' :: ([] : List Char)) ≠ [] ∧
      (∀ c ∈ ('n' :: 'o' :: 't' :: 'e' :: ([] : List Char)),
        c ≠ ']' ∧ c ≠ '|' ∧ c ≠ '#' ∧ c ≠ '^' ∧ c ≠ '!')) ∧
    resolveRelativeEmbeds resolveNoteEnv "a/b.md" "![[note]]" =
      "![[vault/dir/note.md]]" ∧
    resolveRelativeEmbeds noResolveEnv "a/b.md" "![[note]]" = "![[note]]" ∧
    resolveRelativeEmbeds resolveNoteEnv "a/b.md" "![alt](pic.png)" =
      "![alt](notes/pic.png)" := by
  refine ⟨⟨by decide, by decide⟩, ?_, ?_, ?_⟩
  · exact (claim_C9_amended resolveNoteEnv "a/b.md" ('n' :: 'o' :: 't' :: 'e' :: [])
      (by decide) (by decide)).2.1 "vault/dir/note.md" (by decide) (by decide)
  · exact (claim_C9_amended noResolveEnv "a/b.md" ('n' :: 'o' :: 't' :: 'e' :: [])
      (by decide) (by decide)).1 (by decide)
  · exact (claim_C9_amended resolveNoteEnv "a/b.md" ('a' :: 'l' :: 't' :: [])
      (by decide) (by decide)).2.2.1 ('a' :: 'l' :: 't' :: [])
      ('p' :: 'i' :: 'c' :: '.' :: 'p' :: 'n' :: 'g' :: [])
      (by decide) (by decide) (by decide) (by decide) (by decide) (by decide)
